import Mathlib

/-!
Verification development for the file lifecycle and consistency engine of a
multi-tenant file-storage backend (Express + MongoDB + S3).

The model embeds the metadata documents (File collection), the per-user quota
counter (storageUsed / storageLimit) and the object store (set of blob keys)
of a single authenticated user; every database query in the source is scoped
to the authenticated userId, so a state models one user namespace.  Mongo
ObjectIds are opaque identifiers; they are modelled as natural numbers
generated by a counter.  Dates are modelled as natural numbers.
-/

namespace GDrive

/-- Node type enum of the File schema: file or folder. -/
inductive NType where
  | file
  | folder
deriving DecidableEq, Repr

/-- Modelled from the spec: the File model itself is not part of the sources
(only its callers are).  Section 3 of the design document lists its fields:
id, type, name, parentId (null means root), s3Key, size (0 for folders),
mimeType, isStarred, isTrash and trashedAt (false / null when live). -/
structure Node where
  id : Nat
  name : String
  type : NType
  parentId : Option Nat
  s3Key : String
  size : Nat
  mimeType : String
  isStarred : Bool
  isTrash : Bool
  trashedAt : Option Nat
deriving DecidableEq, Repr

/-- One user namespace: File documents, the S3 bucket contents (keys), the
quota counter pair stored on the user document, and the ObjectId generator. -/
structure DriveState where
  files : List Node
  blobs : List String
  storageUsed : Int
  storageLimit : Int
  nextId : Nat
deriving DecidableEq, Repr

/-- The JS String.prototype.trim: strip whitespace from both ends.  Written
over the character list so that it reduces inside the kernel. -/
def jsTrim (s : String) : String :=
  ⟨((s.data.dropWhile (fun c => c.isWhitespace)).reverse.dropWhile
      (fun c => c.isWhitespace)).reverse⟩

/-- The JS String.prototype.split on a single-character separator. -/
def splitOnChar (c : Char) : List Char → List (List Char)
  | [] => [[]]
  | a :: rest =>
      let r := splitOnChar c rest
      if a = c then [] :: r
      else
        match r with
        | [] => [[a]]
        | g :: gs => (a :: g) :: gs

/-- File.findOne with an id filter. -/
def lookupId (files : List Node) (i : Nat) : Option Node :=
  files.find? (fun n => n.id == i)

/-- Follow one parent pointer: look the id up and read parentId, as the
while loop of the move endpoint does on each iteration. -/
def parentStep (files : List Node) (i : Nat) : Option Nat :=
  (lookupId files i).bind (fun n => n.parentId)

section ParentChain

variable {α : Type}

/-- Iterate a parent-pointer function a given number of times. -/
def iterF (f : α → Option α) : Nat → α → Option α
  | 0, x => some x
  | k + 1, x => (f x).bind (iterF f k)

/-- The ancestor-id list collected by the move endpoint: push the current id,
then follow its parent pointer, stopping when the pointer is absent.  The
source loop is unbounded; fuel bounds the walk, and the lemmas below show
the chosen fuel never runs out on acyclic states. -/
def chainF (f : α → Option α) : Nat → Option α → List α
  | 0, _ => []
  | _ + 1, none => []
  | fl + 1, some i => i :: chainF f fl (f i)

/-- Acyclicity of a parent-pointer function: no id returns to itself after
one or more steps. -/
def AcyclicF (f : α → Option α) : Prop :=
  ∀ i k, iterF f (k + 1) i ≠ some i

theorem iterF_one (f : α → Option α) (x : α) : iterF f 1 x = f x := by
  cases hfx : f x <;> simp [iterF, hfx]

theorem iterF_add (f : α → Option α) (m n : Nat) (x : α) :
    iterF f (m + n) x = (iterF f m x).bind (iterF f n) := by
  induction m generalizing x with
  | zero => simp [iterF]
  | succ m ih =>
      have : m + 1 + n = (m + n) + 1 := by omega
      rw [this]
      simp only [iterF]
      cases f x with
      | none => simp
      | some y => simp [ih]

theorem chainF_none (f : α → Option α) (fl : Nat) : chainF f fl none = [] := by
  cases fl <;> simp [chainF]

/-- Soundness of the walk: everything in the chain is reachable. -/
theorem chainF_sound (f : α → Option α) :
    ∀ fl ox t, t ∈ chainF f fl ox → ∃ k, ox.bind (iterF f k) = some t := by
  intro fl
  induction fl with
  | zero => intro ox t h; simp [chainF] at h
  | succ fl ih =>
      intro ox t h
      cases ox with
      | none => simp [chainF] at h
      | some i =>
          simp only [chainF, List.mem_cons] at h
          rcases h with rfl | h
          · exact ⟨0, rfl⟩
          · obtain ⟨k, hk⟩ := ih (f i) t h
            refine ⟨k + 1, ?_⟩
            simpa [iterF] using hk

/-- Completeness of the walk for reachability within the fuel bound. -/
theorem chainF_complete_of_lt (f : α → Option α) :
    ∀ fl k x t, iterF f k x = some t → k < fl → t ∈ chainF f fl (some x) := by
  intro fl
  induction fl with
  | zero => intro k x t _ h; omega
  | succ fl ih =>
      intro k x t hit hk
      cases k with
      | zero =>
          simp only [iterF, Option.some.injEq] at hit
          subst hit
          simp [chainF]
      | succ k =>
          simp only [iterF] at hit
          cases hfx : f x with
          | none => rw [hfx] at hit; simp at hit
          | some y =>
              rw [hfx] at hit
              simp only [Option.some_bind] at hit
              have := ih k y t hit (by omega)
              simp only [chainF, hfx, List.mem_cons]
              exact Or.inr this

/-- Under acyclicity the walk never revisits an id. -/
theorem chainF_nodup (f : α → Option α) (hac : AcyclicF f) :
    ∀ fl ox, (chainF f fl ox).Nodup := by
  intro fl
  induction fl with
  | zero => intro ox; simp [chainF]
  | succ fl ih =>
      intro ox
      cases ox with
      | none => simp [chainF]
      | some i =>
          simp only [chainF]
          refine List.nodup_cons.mpr ⟨?_, ih (f i)⟩
          intro hmem
          obtain ⟨k, hk⟩ := chainF_sound f fl (f i) i hmem
          have : iterF f (k + 1) i = some i := by simpa [iterF] using hk
          exact hac i k this

/-- Every chain element except possibly the final one is in the domain list. -/
theorem chainF_dropLast_subset (f : α → Option α) (L : List α)
    (hdom : ∀ i, (f i).isSome → i ∈ L) :
    ∀ fl ox, (chainF f fl ox).dropLast ⊆ L := by
  intro fl
  induction fl with
  | zero => intro ox; simp [chainF]
  | succ fl ih =>
      intro ox
      cases ox with
      | none => simp [chainF]
      | some i =>
          simp only [chainF]
          cases hrest : chainF f fl (f i) with
          | nil => simp
          | cons r rs =>
              rw [List.dropLast_cons₂]
              refine List.cons_subset.mpr ⟨?_, by rw [← hrest]; exact ih (f i)⟩
              have hfi : (f i).isSome := by
                cases hfx : f i with
                | none => rw [hfx, chainF_none] at hrest; cases hrest
                | some y => simp
              exact hdom i hfi

/-- On an acyclic state the walk halts strictly inside its fuel budget. -/
theorem chainF_length_lt [DecidableEq α] (f : α → Option α) (L : List α)
    (hdom : ∀ i, (f i).isSome → i ∈ L) (hac : AcyclicF f) (ox : Option α) :
    (chainF f (L.length + 2) ox).length < L.length + 2 := by
  set c := chainF f (L.length + 2) ox with hc
  have hnd : c.Nodup := chainF_nodup f hac _ _
  have hsub : c.dropLast ⊆ L := chainF_dropLast_subset f L hdom _ _
  have hndd : c.dropLast.Nodup := hnd.sublist (List.dropLast_sublist c)
  have hcard : c.dropLast.length ≤ L.length := by
    have h1 : c.dropLast.toFinset.card = c.dropLast.length :=
      List.toFinset_card_of_nodup hndd
    have h2 : c.dropLast.toFinset ⊆ L.toFinset := by
      intro a ha
      simp only [List.mem_toFinset] at ha ⊢
      exact hsub ha
    have h3 : c.dropLast.toFinset.card ≤ L.toFinset.card := Finset.card_le_card h2
    have h4 : L.toFinset.card ≤ L.length := List.toFinset_card_le L
    omega
  have hlen : c.length ≤ c.dropLast.length + 1 := by
    have := c.length_dropLast
    omega
  omega

/-- Completeness of the fueled walk on acyclic states: anything reachable is
in the chain at fuel one past the bound forced by the domain list. -/
theorem chainF_complete [DecidableEq α] (f : α → Option α) (L : List α)
    (hdom : ∀ i, (f i).isSome → i ∈ L) (hac : AcyclicF f)
    (k : Nat) (x t : α) (hit : iterF f k x = some t) :
    t ∈ chainF f (L.length + 2) (some x) := by
  have hshort :
      ∀ fl ox, (chainF f fl ox).length < fl →
        ∀ k t, ox.bind (iterF f k) = some t → t ∈ chainF f fl ox := by
    intro fl
    induction fl with
    | zero => intro ox h; omega
    | succ fl ih =>
        intro ox hlen k t hreach
        cases ox with
        | none => simp at hreach
        | some i =>
            simp only [Option.some_bind] at hreach
            cases k with
            | zero =>
                simp only [iterF, Option.some.injEq] at hreach
                subst hreach
                simp [chainF]
            | succ k =>
                simp only [iterF] at hreach
                cases hfx : f i with
                | none => rw [hfx] at hreach; simp at hreach
                | some y =>
                    rw [hfx] at hreach
                    simp only [chainF, hfx, List.mem_cons] at hlen ⊢
                    right
                    refine ih (some y) (by simpa using Nat.lt_of_succ_lt_succ hlen) k t ?_
                    simpa using hreach
  exact hshort (L.length + 2) (some x) (chainF_length_lt f L hdom hac _) k t
    (by simpa using hit)

/-- Any cycle can be shortened to a cycle whose length is at most the size of
the domain list. -/
theorem cycle_shorten [DecidableEq α] (f : α → Option α) (L : List α)
    (hdom : ∀ i, (f i).isSome → i ∈ L) (i : α) (K : Nat)
    (hc : iterF f (K + 1) i = some i) :
    ∃ x k, x ∈ L ∧ 1 ≤ k ∧ k ≤ L.length ∧ iterF f k x = some x := by
  have hpref : ∀ a, a ≤ K + 1 → (iterF f a i).isSome := by
    intro a ha
    have : K + 1 = a + (K + 1 - a) := by omega
    rw [this, iterF_add] at hc
    cases hia : iterF f a i with
    | none => rw [hia] at hc; simp at hc
    | some y => simp
  by_cases hKL : K + 1 ≤ L.length
  · refine ⟨i, K + 1, ?_, by omega, hKL, hc⟩
    have h1 : (iterF f 1 i).isSome := hpref 1 (by omega)
    have hfi : (f i).isSome := by
      simp only [iterF] at h1
      cases hfx : f i with
      | none => rw [hfx] at h1; simp at h1
      | some y => simp
    exact hdom i hfi
  · -- trajectory positions 0 .. L.length are all defined and land in L
    have hdef : ∀ j, j ≤ L.length → (iterF f j i).isSome := by
      intro j hj; exact hpref j (by omega)
    set y : Nat → α := fun j => (iterF f j i).getD i with hy
    have hyL : ∀ j, j ≤ L.length → y j ∈ L := by
      intro j hj
      have hj1 : (iterF f (j + 1) i).isSome := hpref (j + 1) (by omega)
      obtain ⟨v, hv⟩ := Option.isSome_iff_exists.mp (hdef j hj)
      have hyv : y j = v := by simp [hy, hv]
      have hstep : iterF f (j + 1) i = f v := by
        rw [iterF_add f j 1 i, hv, Option.some_bind, iterF_one]
      rw [hyv]
      apply hdom v
      rw [← hstep]
      exact hj1
    have hmaps : ∀ j ∈ Finset.range (L.length + 1), y j ∈ L.toFinset := by
      intro j hj
      simp only [Finset.mem_range] at hj
      exact List.mem_toFinset.mpr (hyL j (by omega))
    have hcardlt : L.toFinset.card < (Finset.range (L.length + 1)).card := by
      have := List.toFinset_card_le L
      simp only [Finset.card_range]
      omega
    obtain ⟨a, ha, b, hb, hne, heq⟩ :=
      Finset.exists_ne_map_eq_of_card_lt_of_maps_to hcardlt hmaps
    simp only [Finset.mem_range] at ha hb
    -- order the colliding indices
    rcases Nat.lt_or_ge a b with hab | hba
    · obtain ⟨va, hva⟩ := Option.isSome_iff_exists.mp (hdef a (by omega))
      obtain ⟨vb, hvb⟩ := Option.isSome_iff_exists.mp (hdef b (by omega))
      have hvav : va = vb := by
        have h1 : y a = va := by simp [hy, hva]
        have h2 : y b = vb := by simp [hy, hvb]
        rw [h1, h2] at heq; exact heq
      have hiter : iterF f (b - a) va = some va := by
        have : b = a + (b - a) := by omega
        rw [this, iterF_add, hva] at hvb
        simp only [Option.some_bind] at hvb
        rw [hvb, hvav]
      refine ⟨va, b - a, ?_, by omega, by omega, hiter⟩
      have : y a = va := by simp [hy, hva]
      rw [← this]
      exact hyL a (by omega)
    · have hba' : b < a := by omega
      obtain ⟨va, hva⟩ := Option.isSome_iff_exists.mp (hdef a (by omega))
      obtain ⟨vb, hvb⟩ := Option.isSome_iff_exists.mp (hdef b (by omega))
      have hvav : vb = va := by
        have h1 : y a = va := by simp [hy, hva]
        have h2 : y b = vb := by simp [hy, hvb]
        rw [h1, h2] at heq; exact heq.symm
      have hiter : iterF f (a - b) vb = some vb := by
        have : a = b + (a - b) := by omega
        rw [this, iterF_add, hvb] at hva
        simp only [Option.some_bind] at hva
        rw [hva, hvav]
      refine ⟨vb, a - b, ?_, by omega, by omega, hiter⟩
      have : y b = vb := by simp [hy, hvb]
      rw [← this]
      exact hyL b (by omega)

/-- If a walk under the updated pointer function never visits the updated id,
the original and updated iterates agree. -/
theorem iterF_agree [DecidableEq α] (f : α → Option α) (x : α) (v : Option α) :
    ∀ k i, (∀ a, a < k → iterF (fun j => if j = x then v else f j) a i ≠ some x) →
      iterF f k i = iterF (fun j => if j = x then v else f j) k i := by
  intro k
  induction k with
  | zero => intro i _; rfl
  | succ k ih =>
      intro i hav
      have hix : i ≠ x := by
        intro h
        exact hav 0 (by omega) (by simp [iterF, h])
      have hg : (fun j => if j = x then v else f j) i = f i := by simp [hix]
      simp only [iterF, hg]
      cases hfx : f i with
      | none => rfl
      | some y =>
          simp only [Option.some_bind]
          apply ih
          intro a ha hya
          have : iterF (fun j => if j = x then v else f j) (a + 1) i = some x := by
            simp only [iterF, hfx]
            rw [if_neg hix, Option.some_bind]
            exact hya
          exact hav (a + 1) (by omega) this

/-- A cycle through a visited id rotates into a cycle based at that id. -/
theorem iterF_rotate (g : α → Option α) (i x : α) (K a : Nat)
    (hK : iterF g K i = some i) (ha : iterF g a i = some x) (haK : a ≤ K) :
    iterF g K x = some x := by
  have h1 : iterF g (K - a) x = some i := by
    have hsplit : K = a + (K - a) := by omega
    rw [hsplit, iterF_add, ha, Option.some_bind] at hK
    exact hK
  have h2 : iterF g K x = iterF g ((K - a) + a) x := by
    have : (K - a) + a = K := by omega
    rw [this]
  rw [h2, iterF_add, h1, Option.some_bind]
  exact ha

/-- Repointing one id preserves acyclicity, provided the new target is not the
repointed id itself and the repointed id is not among the ancestors of the new
target as computed by the fueled walk on the old state.  This is the abstract
heart of the cycle check in the move endpoint. -/
theorem acyclic_update [DecidableEq α] (f : α → Option α) (L : List α)
    (hdom : ∀ i, (f i).isSome → i ∈ L) (hac : AcyclicF f) (x : α) (v : Option α)
    (hv : ∀ np, v = some np → np ≠ x ∧ x ∉ chainF f (L.length + 2) (f np)) :
    AcyclicF (fun j => if j = x then v else f j) := by
  set g : α → Option α := fun j => if j = x then v else f j with hgdef
  have hgx : g x = v := by simp [hgdef]
  have main : ∀ K, ∀ i, iterF g (K + 1) i ≠ some i := by
    intro K
    induction K using Nat.strong_induction_on with
    | _ K IH =>
        intro i hcyc
        by_cases hpass : ∃ a, a < K + 1 ∧ iterF g a i = some x
        · obtain ⟨a, haK, hax⟩ := hpass
          have hxcyc : iterF g (K + 1) x = some x :=
            iterF_rotate g i x (K + 1) a hcyc hax (by omega)
          have hstep : iterF g (K + 1) x = v.bind (iterF g K) := by
            simp only [iterF, hgx]
          rw [hstep] at hxcyc
          cases hv0 : v with
          | none => rw [hv0] at hxcyc; simp at hxcyc
          | some np =>
              obtain ⟨hnp_ne, hnp_walk⟩ := hv np hv0
              rw [hv0, Option.some_bind] at hxcyc
              cases K with
              | zero =>
                  simp only [iterF, Option.some.injEq] at hxcyc
                  exact hnp_ne hxcyc
              | succ K2 =>
                  by_cases hpass2 : ∃ b, b < K2 + 1 ∧ iterF g b np = some x
                  · obtain ⟨b, hb, hbx⟩ := hpass2
                    have hsmall : iterF g (b + 1) x = some x := by
                      simp only [iterF, hgx, hv0, Option.some_bind]
                      exact hbx
                    exact IH b (by omega) x hsmall
                  · push_neg at hpass2
                    have hagree : iterF f (K2 + 1) np = iterF g (K2 + 1) np := by
                      apply iterF_agree
                      intro b hb
                      exact hpass2 b hb
                    have hold : iterF f (K2 + 1) np = some x := by
                      rw [hagree]; exact hxcyc
                    have hfirst : iterF f (K2 + 1) np = (f np).bind (iterF f K2) := rfl
                    rw [hfirst] at hold
                    cases hq : f np with
                    | none => rw [hq] at hold; simp at hold
                    | some q =>
                        rw [hq, Option.some_bind] at hold
                        have hmem : x ∈ chainF f (L.length + 2) (some q) :=
                          chainF_complete f L hdom hac K2 q x hold
                        rw [hq] at hnp_walk
                        exact hnp_walk hmem
        · push_neg at hpass
          have hagree : iterF f (K + 1) i = iterF g (K + 1) i := by
            apply iterF_agree
            intro a ha
            exact hpass a ha
          exact hac i K (by rw [hagree]; exact hcyc)
  intro i k
  exact main k i

end ParentChain

/-- Ids of all documents in the collection. -/
def idsOf (files : List Node) : List Nat :=
  files.map (fun n => n.id)

/-- The ancestor-id list collected by the move endpoint while loop, starting
from a given parent pointer.  The source loop is unbounded; the fuel is large
enough that it never runs out on acyclic states (chainF lemmas above). -/
def ancestorChain (files : List Node) (start : Option Nat) : List Nat :=
  chainF (parentStep files) ((idsOf files).length + 2) start

/-- Acyclicity of the parentId graph of a collection. -/
def Acyclic (files : List Node) : Prop :=
  AcyclicF (parentStep files)

/-- Executable acyclicity check, used to discharge hypotheses on concrete
states. -/
def acyclicB (files : List Node) : Bool :=
  files.all (fun n => !((ancestorChain files (parentStep files n.id)).contains n.id))

theorem parentStep_dom (files : List Node) (i : Nat) :
    (parentStep files i).isSome → i ∈ idsOf files := by
  intro h
  simp only [parentStep, lookupId] at h
  cases hf : files.find? (fun n => n.id == i) with
  | none => rw [hf] at h; simp at h
  | some n =>
      have hmem : n ∈ files := List.mem_of_find?_eq_some hf
      have hid : n.id = i := by
        have := List.find?_some hf
        simpa using this
      simp only [idsOf, List.mem_map]
      exact ⟨n, hmem, hid⟩

theorem acyclic_of_acyclicB (files : List Node) (h : acyclicB files = true) :
    Acyclic files := by
  intro i k hcyc
  have hdom := parentStep_dom files
  obtain ⟨x, k2, hxL, hk1, hkL, hx⟩ :=
    cycle_shorten (parentStep files) (idsOf files) hdom i k hcyc
  obtain ⟨n, hn, hnid⟩ := List.mem_map.mp hxL
  have hall := List.all_eq_true.mp h n hn
  cases k2 with
  | zero => omega
  | succ k3 =>
      simp only [iterF] at hx
      cases hp : parentStep files x with
      | none => rw [hp] at hx; simp at hx
      | some q =>
          rw [hp, Option.some_bind] at hx
          have hklen : k3 < (idsOf files).length + 2 := by
            have : (idsOf files).length = files.length := by simp [idsOf]
            omega
          have hmem : x ∈ chainF (parentStep files) ((idsOf files).length + 2) (some q) :=
            chainF_complete_of_lt (parentStep files) _ k3 q x hx hklen
          rw [hnid] at hall
          have : x ∈ ancestorChain files (parentStep files x) := by
            simp only [ancestorChain, hp]
            exact hmem
          simp only [Bool.not_eq_true', List.contains_eq_any_beq] at hall
          have hcontains : (ancestorChain files (parentStep files x)).any (fun y => x == y) = true := by
            rw [List.any_eq_true]
            exact ⟨x, this, by simp⟩
          rw [hcontains] at hall
          cases hall

/-- An HTTP error response: status code and message. -/
structure ErrResp where
  status : Nat
  message : String
deriving DecidableEq, Repr

/-- Enum of the JSON parentId value of a move request: absent or null, the
literal string root, the empty string, or an ObjectId. -/
inductive MovePId where
  | nullv
  | rootStr
  | emptyStr
  | idv (i : Nat)
deriving DecidableEq, Repr

/-- Normalization done by the move endpoint: parentId equal to root or the
empty string becomes null. -/
def normalizeMovePId : MovePId → Option Nat
  | .nullv => none
  | .rootStr => none
  | .emptyStr => none
  | .idv i => some i

/-- POST /:id/move.  The comparison of the current and requested parent ids
coerces both sides to strings with null mapped to the empty string; ObjectId
strings are nonempty and distinct, so it is the equality of the two optional
ids, which is how it is modelled here. -/
def move (st : DriveState) (rid : Nat) (reqParent : MovePId) :
    Except ErrResp Node × DriveState :=
  match lookupId st.files rid with
  | none => (.error ⟨404, "Not found."⟩, st)
  | some item =>
      let newParentId := normalizeMovePId reqParent
      if item.parentId == newParentId then (.ok item, st)
      else
        let parentCheck : Option ErrResp :=
          match newParentId with
          | none => none
          | some np =>
              match st.files.find? (fun n => n.id == np && n.type == NType.folder) with
              | none => some ⟨400, "Destination folder not found."⟩
              | some newParent =>
                  if newParent.id == item.id then some ⟨400, "Cannot move into itself."⟩
                  else if item.id ∈ ancestorChain st.files newParent.parentId then
                    some ⟨400, "Cannot move folder into its own descendant."⟩
                  else none
        match parentCheck with
        | some e => (.error e, st)
        | none =>
            match st.files.find? (fun n =>
                n.parentId == newParentId && n.name == item.name && n.isTrash == false) with
            | some _ =>
                (.error ⟨400, "An item with this name already exists in the destination."⟩, st)
            | none =>
                (.ok { item with parentId := newParentId },
                  { st with files := st.files.map (fun n =>
                      if n.id == item.id then { n with parentId := newParentId } else n) })

/-- PATCH /:id, the rename endpoint. -/
def rename (st : DriveState) (rid : Nat) (name : String) :
    Except ErrResp Node × DriveState :=
  if jsTrim name == "" then (.error ⟨400, "Name is required."⟩, st)
  else
    match lookupId st.files rid with
    | none => (.error ⟨404, "Not found."⟩, st)
    | some item =>
        (.ok { item with name := jsTrim name },
          { st with files := st.files.map (fun n =>
              if n.id == rid then { n with name := jsTrim name } else n) })

/-- PATCH /:id/star, the single-item star toggle. -/
def star (st : DriveState) (rid : Nat) : Except ErrResp Node × DriveState :=
  match lookupId st.files rid with
  | none => (.error ⟨404, "Not found"⟩, st)
  | some item =>
      (.ok { item with isStarred := !item.isStarred },
        { st with files := st.files.map (fun n =>
            if n.id == rid then { n with isStarred := !item.isStarred } else n) })

/-- POST /bulk-star: one shared new status is computed for the whole id set
and written to every matching document; the response carries the status. -/
def bulkStar (st : DriveState) (ids : List Nat) :
    Except ErrResp (String × Bool) × DriveState :=
  if ids.isEmpty then (.error ⟨400, "ids array is required."⟩, st)
  else
    let items := st.files.filter (fun n => ids.contains n.id)
    let anyUnstarred := items.any (fun n => !n.isStarred)
    let newStatus := anyUnstarred
    (.ok (if newStatus then "Added to Starred" else "Removed from Starred", newStatus),
      { st with files := st.files.map (fun n =>
          if ids.contains n.id then { n with isStarred := newStatus } else n) })

/-- The children query shared by the fileService cascade helpers: documents
whose parentId is the item, or whose s3Key has the item s3Key as a slash
terminated prefix (the regex built from the escaped key). -/
def childQuery (files : List Node) (item : Node) : List Node :=
  files.filter (fun c =>
    c.parentId == some item.id || (item.s3Key ++ "/").data.isPrefixOf c.s3Key.data)

/-- fileService.softDeleteFile: mark the item, and for folders every document
returned by the children query, as trashed. -/
def softDeleteFile (st : DriveState) (fileId : Nat) (now : Nat) : Bool × DriveState :=
  match lookupId st.files fileId with
  | none => (false, st)
  | some item =>
      let childIds :=
        if item.type == NType.folder then (childQuery st.files item).map (fun c => c.id)
        else []
      (true, { st with files := st.files.map (fun n =>
          if (childIds.contains n.id || n.id == item.id) && !n.isTrash then
            { n with isTrash := true, trashedAt := some now }
          else n) })

/-- fileService.restoreFile: clear the trash mark on the item, and for folders
on every trashed document returned by the children query. -/
def restoreFile (st : DriveState) (fileId : Nat) : Bool × DriveState :=
  match lookupId st.files fileId with
  | none => (false, st)
  | some item =>
      let childIds :=
        if item.type == NType.folder then (childQuery st.files item).map (fun c => c.id)
        else []
      (true, { st with files := st.files.map (fun n =>
          if (childIds.contains n.id && n.isTrash) || n.id == item.id then
            { n with isTrash := false, trashedAt := none }
          else n) })

/-- fileService.deleteFilePermanently: delete the item (for folders, together
with the documents of the children query), delete file blobs, and decrement
the quota counter by the freed file bytes. -/
def deleteFilePermanently (st : DriveState) (fileId : Nat) : Bool × DriveState :=
  match lookupId st.files fileId with
  | none => (false, st)
  | some item =>
      if item.type == NType.folder then
        let children := childQuery st.files item
        let childFiles := children.filter (fun c => c.type == NType.file)
        let totalSizeFreed := (childFiles.map (fun c => c.size)).sum
        let childIds := children.map (fun c => c.id)
        let childKeys := childFiles.map (fun c => c.s3Key)
        (true, { st with
          files := st.files.filter (fun n => !(childIds.contains n.id) && n.id != item.id),
          blobs := st.blobs.filter (fun k => !(childKeys.contains k)),
          storageUsed :=
            if totalSizeFreed > 0 then st.storageUsed - (totalSizeFreed : Int)
            else st.storageUsed })
      else
        (true, { st with
          files := st.files.filter (fun n => n.id != item.id),
          blobs := st.blobs.filter (fun k => k != item.s3Key),
          storageUsed :=
            if item.size > 0 then st.storageUsed - (item.size : Int)
            else st.storageUsed })

/-- Index of the last occurrence of a character, as the JS lastIndexOf. -/
def lastIdxOf (c : Char) : List Char → Option Nat
  | [] => none
  | a :: rest =>
      match lastIdxOf c rest with
      | some i => some (i + 1)
      | none => if a = c then some 0 else none

/-- Split a file name at the last dot when it is at a positive index, as the
duplicate-name loop of the upload endpoint does. -/
def splitExt (name : String) : String × String :=
  match lastIdxOf '.' name.data with
  | some i => if i > 0 then (⟨name.data.take i⟩, ⟨name.data.drop i⟩) else (name, "")
  | none => (name, "")

/-- Candidate name with the duplicate counter inserted: base, space, opening
parenthesis, counter, closing parenthesis, extension. -/
def candidateName (relFileName : String) (counter : Nat) : String :=
  let base := (splitExt relFileName).1
  let ext := (splitExt relFileName).2
  base ++ " (" ++ Nat.repr counter ++ ")" ++ ext

/-- File.exists with the live-sibling filter of the duplicate-name loop. -/
def nameTaken (files : List Node) (parent : Option Nat) (name : String) : Bool :=
  (files.find? (fun n =>
    n.parentId == parent && n.name == name && n.isTrash == false)).isSome

/-- The duplicate-name while loop of the upload endpoint, fueled.  The loop is
unbounded in the source; the fuel is irrelevant whenever a free candidate
exists within it, which pigeonhole guarantees for the chosen budget. -/
def resolveNameLoop (files : List Node) (parent : Option Nat) (relFileName : String) :
    Nat → String → Nat → String
  | 0, finalName, _ => finalName
  | fuel + 1, finalName, counter =>
      if nameTaken files parent finalName then
        resolveNameLoop files parent relFileName fuel
          (candidateName relFileName counter) (counter + 1)
      else finalName

/-- Resolved upload file name: the requested name, or the first free
counter-decorated candidate. -/
def resolveName (files : List Node) (parent : Option Nat) (relFileName : String) : String :=
  resolveNameLoop files parent relFileName (files.length + 2) relFileName 1

/-- The folder auto-creation loop of the upload endpoint: for each directory
component, reuse a folder of that name under the current parent (no trash
filter in this query) or create one. -/
def ensureDirs : DriveState → Option Nat → List String → Option Nat × DriveState
  | st, cur, [] => (cur, st)
  | st, cur, dirName :: rest =>
      if dirName == "" || dirName == "." then ensureDirs st cur rest
      else
        match st.files.find? (fun n =>
            n.name == dirName && n.type == NType.folder && n.parentId == cur) with
        | some folder => ensureDirs st (some folder.id) rest
        | none =>
            let folder : Node :=
              { id := st.nextId, name := dirName, type := NType.folder,
                parentId := cur, s3Key := "folders/" ++ Nat.repr st.nextId, size := 0,
                mimeType := "", isStarred := false, isTrash := false, trashedAt := none }
            ensureDirs { st with files := st.files ++ [folder], nextId := st.nextId + 1 }
              (some folder.id) rest

/-- An upload request: the declared content-length seen by the quota
middleware, the actual uploaded size and fresh S3 key chosen by multer, the
original file name, the sanitized relativePath components, the body parentId
and the content type. -/
structure UploadReq where
  declaredLen : Nat
  size : Nat
  key : String
  origName : String
  parts : List String
  parentId : Option Nat
  mimeType : String
deriving DecidableEq, Repr

/-- POST /upload: quota pre-check on the declared length, streaming write of
the blob to a fresh key, exact-size quota re-check with blob compensation on
failure, folder auto-creation, duplicate-name resolution, document creation
and quota commit. -/
def upload (st : DriveState) (req : UploadReq) : Except ErrResp Node × DriveState :=
  if req.declaredLen > 0 ∧ st.storageUsed + (req.declaredLen : Int) > st.storageLimit then
    (.error ⟨403, "Storage quota exceeded."⟩, st)
  else
    let st1 := { st with blobs := req.key :: st.blobs }
    if st1.storageUsed + (req.size : Int) > st1.storageLimit then
      (.error ⟨403, "Storage quota exceeded."⟩,
        { st1 with blobs := st1.blobs.filter (fun k => k != req.key) })
    else
      let parentDoc := req.parentId.bind (fun p =>
        st1.files.find? (fun n => n.id == p && n.type == NType.folder))
      let relFileName :=
        match req.parts.getLast? with
        | some l => l
        | none => req.origName
      let dirParts := req.parts.dropLast
      let ensured := ensureDirs st1 (parentDoc.map (fun d => d.id)) dirParts
      let currentParentId := ensured.1
      let st2 := ensured.2
      let finalFileName := resolveName st2.files currentParentId relFileName
      let file : Node :=
        { id := st2.nextId, name := finalFileName, type := NType.file,
          parentId := currentParentId, s3Key := req.key, size := req.size,
          mimeType := req.mimeType, isStarred := false, isTrash := false, trashedAt := none }
      (.ok file,
        { st2 with files := st2.files ++ [file], nextId := st2.nextId + 1,
                   storageUsed := st2.storageUsed + (req.size : Int) })

/-- Index of the last slash of a zip entry name: the part after it is the
file name, the part before it the folder path. -/
def splitSlash (entryName : String) : String × String :=
  match lastIdxOf '/' entryName.data with
  | none => (entryName, "")
  | some i => (⟨entryName.data.drop (i + 1)⟩, ⟨entryName.data.take i⟩)

/-- Substring test, as the JS String.includes. -/
def containsSub (s pat : String) : Bool :=
  (List.range (s.length + 1)).any (fun i => pat.data.isPrefixOf (s.data.drop i))

/-- A zip entry: its path inside the archive, whether it is a directory, and
the uncompressed size recorded in its header. -/
structure ZipEntry where
  entryName : String
  isDirectory : Bool
  size : Nat
deriving DecidableEq, Repr

/-- The ensurePath helper of the zip endpoint: walk the path components,
consulting the in-memory path map first, then a live-folder lookup in the
collection, creating missing folders. -/
def ensurePathGo : DriveState → List (String × Option Nat) → Option Nat → String →
    List String → Option Nat × List (String × Option Nat) × DriveState
  | st, pm, cur, _, [] => (cur, pm, st)
  | st, pm, cur, curPath, part :: rest =>
      let nextPath := if curPath == "" then part else curPath ++ "/" ++ part
      match (pm.find? (fun e => e.1 == nextPath)).map (fun e => e.2) with
      | some fid => ensurePathGo st pm fid nextPath rest
      | none =>
          match st.files.find? (fun n => n.name == part && n.type == NType.folder &&
              n.parentId == cur && n.isTrash == false) with
          | some folder =>
              ensurePathGo st ((nextPath, some folder.id) :: pm) (some folder.id) nextPath rest
          | none =>
              let folder : Node :=
                { id := st.nextId, name := part, type := NType.folder,
                  parentId := cur, s3Key := "folders/" ++ Nat.repr st.nextId, size := 0,
                  mimeType := "", isStarred := false, isTrash := false, trashedAt := none }
              ensurePathGo { st with files := st.files ++ [folder], nextId := st.nextId + 1 }
                ((nextPath, some folder.id) :: pm) (some folder.id) nextPath rest

/-- Path components of a zip entry name: split on slash, drop empty parts. -/
def pathParts (p : String) : List String :=
  ((splitOnChar '/' p.data).map (fun g => (⟨g⟩ : String))).filter (fun q => q != "")

/-- The entry-processing loop of the zip endpoint: directories ensure their
path; Mac metadata entries and entries with an empty file name are skipped;
file entries get a fresh key, a blob write and a document. -/
def zipGo : DriveState → List (String × Option Nat) → Option Nat → Nat →
    List ZipEntry → Nat × DriveState
  | st, _, _, count, [] => (count, st)
  | st, pm, parentId, count, entry :: rest =>
      if entry.isDirectory then
        let r := ensurePathGo st pm parentId "" (pathParts entry.entryName)
        zipGo r.2.2 r.2.1 parentId count rest
      else if containsSub entry.entryName "__MACOSX" ||
          containsSub entry.entryName ".DS_Store" then
        zipGo st pm parentId count rest
      else
        let fileName := (splitSlash entry.entryName).1
        let folderPath := (splitSlash entry.entryName).2
        if fileName == "" then zipGo st pm parentId count rest
        else
          let r := ensurePathGo st pm parentId "" (pathParts folderPath)
          let parentFolderId := r.1
          let st1 := r.2.2
          let s3Key := "uploads/" ++ Nat.repr st1.nextId
          let file : Node :=
            { id := st1.nextId, name := fileName, type := NType.file,
              parentId := parentFolderId, s3Key := s3Key, size := entry.size,
              mimeType := "application/octet-stream", isStarred := false,
              isTrash := false, trashedAt := none }
          zipGo { st1 with files := st1.files ++ [file], blobs := s3Key :: st1.blobs,
                           nextId := st1.nextId + 1 }
            r.2.1 parentId (count + 1) rest

/-- A zip import request: the declared content-length of the archive body and
the parsed entries, with the destination parentId. -/
structure ZipReq where
  declaredLen : Nat
  entries : List ZipEntry
  parentId : Option Nat
deriving DecidableEq, Repr

/-- Total uncompressed size of the non-directory entries, first pass of the
zip endpoint. -/
def zipTotalSize (entries : List ZipEntry) : Nat :=
  ((entries.filter (fun e => !e.isDirectory)).map (fun e => e.size)).sum

/-- POST /upload-zip: single whole-archive quota check against the first-pass
total, entry walk, and one quota commit at the end by that same total. -/
def uploadZip (st : DriveState) (req : ZipReq) : Except ErrResp (String × Nat) × DriveState :=
  if req.declaredLen > 0 ∧ st.storageUsed + (req.declaredLen : Int) > st.storageLimit then
    (.error ⟨403, "Storage quota exceeded."⟩, st)
  else
    let totalSize := zipTotalSize req.entries
    if st.storageUsed + (totalSize : Int) > st.storageLimit then
      (.error ⟨403, "Storage quota exceeded (uncompressed size)."⟩, st)
    else
      let pm : List (String × Option Nat) := [("", req.parentId)]
      let r := zipGo st pm req.parentId 0 req.entries
      (.ok ("Zip extracted successfully.", r.1),
        { r.2 with storageUsed := r.2.storageUsed + (totalSize : Int) })

/-- Failure-aware variant of the permanent delete used to study the reaper:
deleting a blob whose key is in the failure set throws, and the error carries
the state at the throw point (DB writes made before the throw persist). -/
def delChildrenF : DriveState → List Node → Nat → List String →
    Except DriveState (Nat × DriveState)
  | st, [], freed, _ => .ok (freed, st)
  | st, c :: rest, freed, failKeys =>
      if c.type == NType.file then
        if failKeys.contains c.s3Key then .error st
        else
          delChildrenF
            { st with blobs := st.blobs.filter (fun k => k != c.s3Key),
                      files := st.files.filter (fun n => n.id != c.id) }
            rest (freed + c.size) failKeys
      else
        delChildrenF { st with files := st.files.filter (fun n => n.id != c.id) }
          rest freed failKeys

/-- fileService.deleteFilePermanently with S3 failure injection. -/
def deleteFilePermanentlyF (st : DriveState) (fileId : Nat) (failKeys : List String) :
    Except DriveState (Bool × DriveState) :=
  match lookupId st.files fileId with
  | none => .ok (false, st)
  | some item =>
      if item.type == NType.folder then
        match delChildrenF st (childQuery st.files item) 0 failKeys with
        | .error st1 => .error st1
        | .ok (freed, st1) =>
            let st2 := { st1 with files := st1.files.filter (fun n => n.id != item.id) }
            .ok (true,
              { st2 with storageUsed :=
                  if freed > 0 then st2.storageUsed - (freed : Int) else st2.storageUsed })
      else
        if failKeys.contains item.s3Key then .error st
        else
          .ok (true,
            { st with
              blobs := st.blobs.filter (fun k => k != item.s3Key),
              files := st.files.filter (fun n => n.id != item.id),
              storageUsed :=
                if item.size > 0 then st.storageUsed - (item.size : Int)
                else st.storageUsed })

/-- A user as seen by the trash-cleanup cron job, together with the per-user
slice of the File collection. -/
structure CronUser where
  uid : Nat
  isActive : Bool
  trashRetentionDays : Nat
  st : DriveState
deriving DecidableEq, Repr

/-- Per-user inner loop of the cron job: re-check existence, then permanently
delete, counting each top-level delete invocation. -/
def sweepUserItems : DriveState → List Node → Nat → List String →
    Except DriveState (Nat × DriveState)
  | st, [], c, _ => .ok (c, st)
  | st, f :: rest, c, failKeys =>
      if (lookupId st.files f.id).isSome then
        match deleteFilePermanentlyF st f.id failKeys with
        | .error st1 => .error st1
        | .ok (_, st1) => sweepUserItems st1 rest (c + 1) failKeys
      else sweepUserItems st rest c failKeys

/-- Expired trashed documents of a user at a cutoff instant. -/
def expiredFiles (st : DriveState) (cutoff : Nat) : List Node :=
  st.files.filter (fun n =>
    n.isTrash && (match n.trashedAt with | some t => decide (t < cutoff) | none => false))

/-- cronService.cleanupTrash: iterate the active users; one try/catch wraps
the whole loop and rethrows, so an error carries the partially processed
user list (states written before the throw persist, later users untouched). -/
def cleanupTrash : List CronUser → Nat → List String →
    Except (List CronUser) (Nat × List CronUser)
  | [], _, _ => .ok (0, [])
  | u :: rest, now, failKeys =>
      if u.isActive then
        let retention := if u.trashRetentionDays == 0 then 30 else u.trashRetentionDays
        let cutoff := now - retention
        match sweepUserItems u.st (expiredFiles u.st cutoff) 0 failKeys with
        | .error st1 => .error ({ u with st := st1 } :: rest)
        | .ok (c, st1) =>
            match cleanupTrash rest now failKeys with
            | .error rem => .error ({ u with st := st1 } :: rem)
            | .ok (c2, rest1) => .ok (c + c2, { u with st := st1 } :: rest1)
      else
        match cleanupTrash rest now failKeys with
        | .error rem => .error (u :: rem)
        | .ok (c2, rest1) => .ok (c2, u :: rest1)

/-- Operations of the quota invariant: uploads and permanent deletes. -/
inductive DriveOp where
  | uploadOp (req : UploadReq)
  | deleteOp (fileId : Nat)
deriving DecidableEq, Repr

/-- Apply one operation to a state, discarding the response. -/
def applyOp (st : DriveState) : DriveOp → DriveState
  | .uploadOp req => (upload st req).2
  | .deleteOp fid => (deleteFilePermanently st fid).2

/-- An empty account with a given storage limit. -/
def initState (limit : Int) : DriveState :=
  { files := [], blobs := [], storageUsed := 0, storageLimit := limit, nextId := 0 }

/-- Run a sequence of operations from the empty account. -/
def runOps (limit : Int) (ops : List DriveOp) : DriveState :=
  ops.foldl applyOp (initState limit)

/-- Sum of the sizes of the live (present, non-trashed) file documents. -/
def liveSum (files : List Node) : Nat :=
  ((files.filter (fun n => n.type == NType.file && !n.isTrash)).map (fun n => n.size)).sum

/-- Contribution of one document to the live-file size sum. -/
def liveWeight (n : Node) : Nat :=
  if n.type == NType.file && !n.isTrash then n.size else 0

theorem liveSum_cons (a : Node) (l : List Node) :
    liveSum (a :: l) = liveWeight a + liveSum l := by
  by_cases h : (a.type == NType.file && !a.isTrash) = true
  · simp [liveSum, liveWeight, List.filter_cons, h]
  · have hf : (a.type == NType.file && !a.isTrash) = false := by
      simpa using h
    simp [liveSum, liveWeight, List.filter_cons, hf]

theorem liveSum_append (l1 l2 : List Node) :
    liveSum (l1 ++ l2) = liveSum l1 + liveSum l2 := by
  simp [liveSum, List.filter_append]

theorem liveSum_split (l : List Node) (p : Node → Bool) :
    liveSum l = liveSum (l.filter p) + liveSum (l.filter (fun n => !(p n))) := by
  induction l with
  | nil => rfl
  | cons a l ih =>
      by_cases h : p a = true
      · simp only [List.filter_cons, h, Bool.not_true, Bool.false_eq_true, if_false, if_true,
          liveSum_cons]
        omega
      · have hf : p a = false := by simpa using h
        simp only [List.filter_cons, hf, Bool.not_false, Bool.false_eq_true, if_false, if_true,
          liveSum_cons]
        omega

theorem liveSum_or_split (l : List Node) (p q : Node → Bool) :
    liveSum (l.filter (fun n => p n || q n)) =
      liveSum (l.filter p) + liveSum (l.filter (fun n => !(p n) && q n)) := by
  induction l with
  | nil => rfl
  | cons a l ih =>
      by_cases hp : p a = true
      · simp only [List.filter_cons, hp, Bool.true_or, Bool.not_true, Bool.false_and,
          Bool.false_eq_true, if_false, if_true, liveSum_cons]
        omega
      · have hpf : p a = false := by simpa using hp
        by_cases hq : q a = true
        · simp only [List.filter_cons, hpf, hq, Bool.false_or, Bool.not_false, Bool.true_and,
            Bool.false_eq_true, if_false, if_true, liveSum_cons]
          omega
        · have hqf : q a = false := by simpa using hq
          simp only [List.filter_cons, hpf, hqf, Bool.false_or, Bool.not_false, Bool.true_and,
            Bool.false_eq_true, if_false, liveSum_cons]
          omega

theorem liveSum_zero (l : List Node) (h : ∀ n ∈ l, liveWeight n = 0) : liveSum l = 0 := by
  induction l with
  | nil => rfl
  | cons a l ih =>
      rw [liveSum_cons, h a (List.mem_cons_self a l), ih (fun n hn => h n (List.mem_cons_of_mem a hn))]

theorem nodup_inj (files : List Node) (hnd : (idsOf files).Nodup) {a b : Node}
    (ha : a ∈ files) (hb : b ∈ files) (hid : a.id = b.id) : a = b :=
  List.inj_on_of_nodup_map (by simpa [idsOf] using hnd) ha hb hid

theorem filter_id_singleton :
    ∀ (files : List Node), (idsOf files).Nodup → ∀ item ∈ files,
      files.filter (fun n => n.id == item.id) = [item] := by
  intro files
  induction files with
  | nil => intro _ item h; cases h
  | cons a l ih =>
      intro hnd item hmem
      have hnd0 : (a.id :: idsOf l).Nodup := by simpa [idsOf] using hnd
      have hnd1 : (idsOf l).Nodup := (List.nodup_cons.mp hnd0).2
      have hanotin : a.id ∉ idsOf l := (List.nodup_cons.mp hnd0).1
      rcases List.mem_cons.mp hmem with rfl | hmem1
      · rw [List.filter_cons]
        simp only [beq_self_eq_true, if_true]
        have hnil : l.filter (fun n => n.id == item.id) = [] := by
          rw [List.filter_eq_nil_iff]
          intro n hn hcn
          apply hanotin
          have : n.id = item.id := by simpa using hcn
          rw [← this]
          exact List.mem_map.mpr ⟨n, hn, rfl⟩
        rw [hnil]
      · have hne : (a.id == item.id) = false := by
          simp only [beq_eq_false_iff_ne]
          intro h
          exact hanotin (h ▸ List.mem_map.mpr ⟨item, hmem1, rfl⟩)
        rw [List.filter_cons, hne]
        simp only [Bool.false_eq_true, if_false]
        exact ih hnd1 item hmem1

/-- The childQuery membership test by id agrees with the childQuery predicate
itself on a collection with distinct ids. -/
theorem childIds_contains (files : List Node) (hnd : (idsOf files).Nodup) (item : Node)
    (n : Node) (hn : n ∈ files) :
    ((childQuery files item).map (fun c => c.id)).contains n.id =
      (n.parentId == some item.id || (item.s3Key ++ "/").data.isPrefixOf n.s3Key.data) := by
  by_cases hcp :
      (n.parentId == some item.id || (item.s3Key ++ "/").data.isPrefixOf n.s3Key.data) = true
  · rw [hcp]
    have hmem : n ∈ childQuery files item := List.mem_filter.mpr ⟨hn, hcp⟩
    have : n.id ∈ (childQuery files item).map (fun c => c.id) :=
      List.mem_map.mpr ⟨n, hmem, rfl⟩
    simpa using this
  · have hcpf :
        (n.parentId == some item.id || (item.s3Key ++ "/").data.isPrefixOf n.s3Key.data)
          = false := by
      cases hcv : (n.parentId == some item.id ||
          (item.s3Key ++ "/").data.isPrefixOf n.s3Key.data) with
      | true => exact absurd hcv hcp
      | false => rfl
    rw [hcpf]
    by_contra hc
    have hctrue : ((childQuery files item).map (fun c => c.id)).contains n.id = true := by
      cases hcv : ((childQuery files item).map (fun c => c.id)).contains n.id with
      | true => rfl
      | false => exact absurd hcv hc
    have hmemmap : n.id ∈ (childQuery files item).map (fun c => c.id) := by
      simpa using hctrue
    obtain ⟨c, hcmem, hcid⟩ := List.mem_map.mp hmemmap
    have hcfiles : c ∈ files := (List.mem_filter.mp hcmem).1
    have hcpred := (List.mem_filter.mp hcmem).2
    have hceq : c = n := nodup_inj files hnd hcfiles hn hcid
    rw [hceq] at hcpred
    rw [hcpred] at hcpf
    cases hcpf

/-- Inductive invariant of the upload and permanent-delete state machine on
an account that has never trashed anything: no document is trashed, ids are
distinct and below the generator, and the quota counter equals the live file
size sum. -/
def GoodState (st : DriveState) : Prop :=
  (∀ n ∈ st.files, n.isTrash = false) ∧
  (idsOf st.files).Nodup ∧
  (∀ n ∈ st.files, n.id < st.nextId) ∧
  (liveSum st.files : Int) = st.storageUsed

theorem ensureDirs_props :
    ∀ (dirs : List String) (st : DriveState) (cur : Option Nat),
      (∀ n ∈ st.files, n.isTrash = false) →
      (idsOf st.files).Nodup →
      (∀ n ∈ st.files, n.id < st.nextId) →
      (∀ n ∈ (ensureDirs st cur dirs).2.files, n.isTrash = false) ∧
      (idsOf (ensureDirs st cur dirs).2.files).Nodup ∧
      (∀ n ∈ (ensureDirs st cur dirs).2.files, n.id < (ensureDirs st cur dirs).2.nextId) ∧
      liveSum (ensureDirs st cur dirs).2.files = liveSum st.files ∧
      (ensureDirs st cur dirs).2.storageUsed = st.storageUsed ∧
      (ensureDirs st cur dirs).2.storageLimit = st.storageLimit := by
  intro dirs
  induction dirs with
  | nil => intro st cur h1 h2 h3; exact ⟨h1, h2, h3, rfl, rfl, rfl⟩
  | cons d rest ih =>
      intro st cur h1 h2 h3
      rw [ensureDirs]
      split
      · exact ih st cur h1 h2 h3
      · split
        · exact ih st _ h1 h2 h3
        · set folder : Node :=
            { id := st.nextId, name := d, type := NType.folder, parentId := cur,
              s3Key := "folders/" ++ Nat.repr st.nextId, size := 0, mimeType := "",
              isStarred := false, isTrash := false, trashedAt := none } with hfolder
          set st1 : DriveState :=
            { st with files := st.files ++ [folder], nextId := st.nextId + 1 } with hst1
          have h1n : ∀ n ∈ st1.files, n.isTrash = false := by
            intro n hn
            rcases List.mem_append.mp hn with hl | hr
            · exact h1 n hl
            · rcases List.mem_singleton.mp hr with rfl
              rfl
          have h2n : (idsOf st1.files).Nodup := by
            have : idsOf st1.files = idsOf st.files ++ [st.nextId] := by
              simp [idsOf, hst1, hfolder]
            rw [this, List.nodup_append]
            refine ⟨h2, List.nodup_singleton _, ?_⟩
            intro a ha hb
            rcases List.mem_singleton.mp hb with rfl
            obtain ⟨n, hn, hnid⟩ := List.mem_map.mp ha
            have := h3 n hn
            omega
          have h3n : ∀ n ∈ st1.files, n.id < st1.nextId := by
            intro n hn
            rcases List.mem_append.mp hn with hl | hr
            · have := h3 n hl
              simp only [hst1]
              omega
            · rcases List.mem_singleton.mp hr with rfl
              simp [hst1, hfolder]
          have hres := ih st1 (some folder.id) h1n h2n h3n
          refine ⟨hres.1, hres.2.1, hres.2.2.1, ?_, ?_, ?_⟩
          · rw [hres.2.2.2.1]
            have : liveSum st1.files = liveSum st.files := by
              simp only [hst1]
              rw [liveSum_append]
              have : liveSum [folder] = 0 := by
                apply liveSum_zero
                intro n hn
                rcases List.mem_singleton.mp hn with rfl
                rfl
              omega
            rw [this]
          · rw [hres.2.2.2.2.1]
          · rw [hres.2.2.2.2.2]

theorem intSum_map (l : List Node) :
    (l.map (fun c => (c.size : Int))).sum =
      (((l.map (fun c => c.size) : List Nat)).sum : Int) := by
  induction l with
  | nil => rfl
  | cons a l ih =>
      simp only [List.map_cons, List.sum_cons]
      rw [ih, Nat.cast_add]

/-- Appending one fresh live file document and charging its size preserves
the quota invariant. -/
theorem good_extend (st2 : DriveState) (fnode : Node) (used1 : Int)
    (h1 : ∀ n ∈ st2.files, n.isTrash = false)
    (h2 : (idsOf st2.files).Nodup)
    (h3 : ∀ n ∈ st2.files, n.id < st2.nextId)
    (h4 : (liveSum st2.files : Int) = st2.storageUsed)
    (hid : fnode.id = st2.nextId)
    (htrash : fnode.isTrash = false)
    (htype : fnode.type = NType.file)
    (hw : used1 = st2.storageUsed + (fnode.size : Int)) :
    GoodState { st2 with
      files := st2.files ++ [fnode]
      nextId := st2.nextId + 1
      storageUsed := used1 } := by
  refine ⟨?_, ?_, ?_, ?_⟩
  · intro n hn
    rcases List.mem_append.mp hn with hl | hr
    · exact h1 n hl
    · rcases List.mem_singleton.mp hr with rfl
      exact htrash
  · show (idsOf (st2.files ++ [fnode])).Nodup
    have heq : idsOf (st2.files ++ [fnode]) = idsOf st2.files ++ [fnode.id] := by
      simp [idsOf]
    rw [heq, List.nodup_append]
    refine ⟨h2, List.nodup_singleton _, ?_⟩
    intro a ha hb
    rcases List.mem_singleton.mp hb with rfl
    obtain ⟨n, hn, hnid⟩ := List.mem_map.mp ha
    have := h3 n hn
    omega
  · intro n hn
    rcases List.mem_append.mp hn with hl | hr
    · have := h3 n hl
      show n.id < st2.nextId + 1
      omega
    · rcases List.mem_singleton.mp hr with rfl
      show n.id < st2.nextId + 1
      omega
  · show (liveSum (st2.files ++ [fnode]) : Int) = used1
    rw [liveSum_append]
    have hn : liveSum [fnode] = fnode.size := by
      rw [liveSum_cons]
      have : liveWeight fnode = fnode.size := by
        rw [liveWeight, htype, htrash]
        rfl
      simp [liveSum, this]
    rw [hn, hw]
    push_cast
    omega

theorem upload_preserves_good (st : DriveState) (req : UploadReq) (h : GoodState st) :
    GoodState (upload st req).2 := by
  obtain ⟨h1, h2, h3, h4⟩ := h
  rw [upload]
  split
  · exact ⟨h1, h2, h3, h4⟩
  · dsimp only
    split
    · exact ⟨h1, h2, h3, h4⟩
    · set E := ensureDirs
        { files := st.files, blobs := req.key :: st.blobs, storageUsed := st.storageUsed,
          storageLimit := st.storageLimit, nextId := st.nextId }
        (Option.map (fun d => d.id)
          (req.parentId.bind fun p =>
            List.find? (fun n => n.id == p && n.type == NType.folder) st.files))
        req.parts.dropLast with hE
      have hprops := ensureDirs_props req.parts.dropLast
        { files := st.files, blobs := req.key :: st.blobs, storageUsed := st.storageUsed,
          storageLimit := st.storageLimit, nextId := st.nextId }
        (Option.map (fun d => d.id)
          (req.parentId.bind fun p =>
            List.find? (fun n => n.id == p && n.type == NType.folder) st.files))
        h1 h2 h3
      rw [← hE] at hprops
      obtain ⟨p1, p2, p3, p4, p5, p6⟩ := hprops
      have h4E : (liveSum E.2.files : Int) = E.2.storageUsed := by
        rw [p4, p5]
        exact h4
      apply good_extend E.2 _ _ p1 p2 p3 h4E
      · rfl
      · rfl
      · rfl
      · rfl

theorem delete_preserves_good (st : DriveState) (fid : Nat) (h : GoodState st) :
    GoodState (deleteFilePermanently st fid).2 := by
  obtain ⟨h1, h2, h3, h4⟩ := h
  rw [deleteFilePermanently]
  cases hit : lookupId st.files fid with
  | none => exact ⟨h1, h2, h3, h4⟩
  | some item =>
      have hitem_mem : item ∈ st.files := List.mem_of_find?_eq_some hit
      have hitem_trash : item.isTrash = false := h1 item hitem_mem
      dsimp only
      by_cases hty : (item.type == NType.folder) = true
      · rw [if_pos hty]
        dsimp only
        set children := childQuery st.files item with hchildren
        set childIds := children.map (fun c => c.id) with hchildIds
        set rem : Node → Bool :=
          fun n => childIds.contains n.id || n.id == item.id with hrem
        have hkeep : st.files.filter
            (fun n => !(childIds.contains n.id) && n.id != item.id) =
            st.files.filter (fun n => !(rem n)) := by
          apply List.filter_congr
          intro n hn
          simp [hrem, bne, Bool.not_or]
        have hremval : liveSum (st.files.filter rem) =
            ((children.filter (fun c => c.type == NType.file)).map (fun c => c.size)).sum := by
          have hcongr : st.files.filter rem = st.files.filter (fun n =>
              (n.parentId == some item.id ||
                (item.s3Key ++ "/").data.isPrefixOf n.s3Key.data) || n.id == item.id) := by
            apply List.filter_congr
            intro n hn
            simp only [hrem]
            rw [childIds_contains st.files h2 item n hn]
          have hzero : liveSum (st.files.filter (fun n =>
              !(n.parentId == some item.id ||
                (item.s3Key ++ "/").data.isPrefixOf n.s3Key.data) && n.id == item.id)) = 0 := by
            apply liveSum_zero
            intro n hn
            have hmem := (List.mem_filter.mp hn).1
            have hpred := (List.mem_filter.mp hn).2
            have hid : n.id = item.id := by
              have hh := hpred
              rw [Bool.and_eq_true] at hh
              simpa using hh.2
            have : n = item := nodup_inj st.files h2 hmem hitem_mem hid
            subst this
            rw [liveWeight]
            have hnf : (n.type == NType.file) = false := by
              cases hv : n.type
              · rw [hv] at hty; cases hty
              · rfl
            rw [hnf]
            rfl
          have hchildsum : liveSum (st.files.filter (fun n =>
              n.parentId == some item.id ||
                (item.s3Key ++ "/").data.isPrefixOf n.s3Key.data)) =
              ((children.filter (fun c => c.type == NType.file)).map (fun c => c.size)).sum := by
            have hcq : st.files.filter (fun n =>
                n.parentId == some item.id ||
                  (item.s3Key ++ "/").data.isPrefixOf n.s3Key.data) = children := rfl
            rw [hcq, liveSum]
            have hfc : children.filter (fun n => n.type == NType.file && !n.isTrash) =
                children.filter (fun c => c.type == NType.file) := by
              apply List.filter_congr
              intro c hc
              have : c ∈ st.files := (List.mem_filter.mp hc).1
              rw [h1 c this]
              simp
            rw [hfc]
          rw [hcongr, liveSum_or_split, hzero, hchildsum]
          omega
        have hsplit := liveSum_split st.files rem
        refine ⟨?_, ?_, ?_, ?_⟩
        · intro n hn
          exact h1 n (List.mem_filter.mp hn).1
        · have hsub : (idsOf (st.files.filter
              (fun n => !(childIds.contains n.id) && n.id != item.id))).Sublist
              (idsOf st.files) := by
            simp only [idsOf]
            exact (List.filter_sublist st.files).map _
          exact h2.sublist hsub
        · intro n hn
          exact h3 n (List.mem_filter.mp hn).1
        · show (liveSum (st.files.filter
              (fun n => !(childIds.contains n.id) && n.id != item.id)) : Int) =
            if (List.map (fun c => (c.size : Int))
                (children.filter (fun c => c.type == NType.file))).sum > 0 then
              st.storageUsed - (List.map (fun c => (c.size : Int))
                (children.filter (fun c => c.type == NType.file))).sum
            else st.storageUsed
          rw [hkeep]
          have hcast := intSum_map (children.filter (fun c => c.type == NType.file))
          rw [← h4]
          split
          · omega
          · omega
      · rw [if_neg hty]
        dsimp only
        have htyf : item.type = NType.file := by
          cases hv : item.type
          · rfl
          · rw [hv] at hty; simp at hty
        have hfilter : st.files.filter (fun n => n.id != item.id) =
            st.files.filter (fun n => !(n.id == item.id)) := by
          apply List.filter_congr
          intro n hn
          simp [bne]
        have hsplit := liveSum_split st.files (fun n => n.id == item.id)
        have hsingle : st.files.filter (fun n => n.id == item.id) = [item] :=
          filter_id_singleton st.files h2 item hitem_mem
        have hsingleval : liveSum [item] = item.size := by
          rw [liveSum_cons]
          have hlw : liveWeight item = item.size := by
            rw [liveWeight, htyf, hitem_trash]
            rfl
          simp [liveSum, hlw]
        refine ⟨?_, ?_, ?_, ?_⟩
        · intro n hn
          exact h1 n (List.mem_filter.mp hn).1
        · have hsub : (idsOf (st.files.filter (fun n => n.id != item.id))).Sublist
              (idsOf st.files) := by
            simp only [idsOf]
            exact (List.filter_sublist st.files).map _
          exact h2.sublist hsub
        · intro n hn
          exact h3 n (List.mem_filter.mp hn).1
        · show (liveSum (st.files.filter (fun n => n.id != item.id)) : Int) =
            if item.size > 0 then st.storageUsed - (item.size : Int) else st.storageUsed
          rw [hfilter, ← h4]
          rw [hsingle, hsingleval] at hsplit
          split
          · omega
          · omega

theorem good_applyOp (st : DriveState) (op : DriveOp) (h : GoodState st) :
    GoodState (applyOp st op) := by
  cases op with
  | uploadOp req => exact upload_preserves_good st req h
  | deleteOp fid => exact delete_preserves_good st fid h

/-- C2: starting from an empty account, after any sequence of upload and
permanent-delete operations (no infrastructure failures are modelled: every
S3 and database write succeeds), the sum of the sizes of the live file
documents equals the storageUsed counter of the user. -/
theorem quota_storage_invariant (limit : Int) (ops : List DriveOp) :
    (liveSum (runOps limit ops).files : Int) = (runOps limit ops).storageUsed := by
  have H : ∀ (l : List DriveOp) (st : DriveState),
      GoodState st → GoodState (l.foldl applyOp st) := by
    intro l
    induction l with
    | nil => intro st h; exact h
    | cons op rest ih => intro st h; exact ih _ (good_applyOp st op h)
  have hinit : GoodState (initState limit) := by
    refine ⟨?_, ?_, ?_, ?_⟩ <;> simp [initState, idsOf, liveSum, GoodState]
  exact (H ops (initState limit) hinit).2.2.2

theorem lookupId_id (files : List Node) (j : Nat) (n : Node)
    (h : lookupId files j = some n) : n.id = j := by
  have := List.find?_some h
  simpa using this

theorem lookup_self :
    ∀ (files : List Node), (idsOf files).Nodup → ∀ item ∈ files,
      lookupId files item.id = some item := by
  intro files
  induction files with
  | nil => intro _ item h; cases h
  | cons a l ih =>
      intro hnd item hmem
      have hnd0 : (a.id :: idsOf l).Nodup := by simpa [idsOf] using hnd
      rcases List.mem_cons.mp hmem with rfl | hm
      · simp [lookupId, List.find?]
      · by_cases hae : (a.id == item.id) = true
        · exfalso
          have heq : a.id = item.id := by simpa using hae
          exact (List.nodup_cons.mp hnd0).1 (heq ▸ List.mem_map.mpr ⟨item, hm, rfl⟩)
        · have hf : (a.id == item.id) = false := by
            cases hv : (a.id == item.id) with
            | true => exact absurd hv hae
            | false => rfl
          show (a :: l).find? (fun n => n.id == item.id) = some item
          simp only [List.find?, hf]
          exact ih (List.nodup_cons.mp hnd0).2 item hm

theorem lookupId_map_preserve (files : List Node) (f : Node → Node)
    (hf : ∀ n, (f n).id = n.id) (j : Nat) :
    lookupId (files.map f) j = (lookupId files j).map f := by
  induction files with
  | nil => rfl
  | cons a l ih =>
      show (f a :: l.map f).find? (fun n => n.id == j) =
        (((a :: l).find? (fun n => n.id == j)).map f)
      cases hv : (a.id == j) with
      | true =>
          have hfv : ((f a).id == j) = true := by rw [hf a]; exact hv
          simp only [List.find?, hfv, hv]
          rfl
      | false =>
          have hfv : ((f a).id == j) = false := by rw [hf a]; exact hv
          simp only [List.find?, hfv, hv]
          exact ih

/-- Repointing the parent of one document changes the parent-pointer function
at exactly that id. -/
theorem parentStep_update (files : List Node) (hnd : (idsOf files).Nodup)
    (item : Node) (hmem : item ∈ files) (v : Option Nat) :
    parentStep (files.map (fun n =>
        if n.id == item.id then { n with parentId := v } else n)) =
      fun j => if j = item.id then v else parentStep files j := by
  funext j
  have hpres : ∀ n : Node,
      ((fun n => if n.id == item.id then { n with parentId := v } else n) n).id = n.id := by
    intro n
    by_cases h : (n.id == item.id) = true
    · simp [h]
    · have hfalse : (n.id == item.id) = false := by
        cases hv2 : (n.id == item.id) with
        | true => exact absurd hv2 h
        | false => rfl
      simp [hfalse]
  rw [parentStep, lookupId_map_preserve files _ hpres j]
  by_cases hj : j = item.id
  · subst hj
    rw [lookup_self files hnd item hmem, if_pos rfl]
    simp
  · rw [if_neg hj]
    cases hfind : lookupId files j with
    | none => simp [parentStep, hfind]
    | some n =>
        have hid : n.id = j := lookupId_id files j n hfind
        have hnif : ¬ (n.id = item.id) := by rw [hid]; exact hj
        simp [parentStep, hfind, hnif]

/-- One id is a strict descendant of another when the parent chain of the
first reaches the second after at least one step. -/
def DescendantOf (files : List Node) (a b : Nat) : Prop :=
  ∃ k, iterF (parentStep files) (k + 1) a = some b

/-- Case analysis of the move endpoint: either the state is unchanged (every
error, and the same-parent short circuit), or the move was accepted after all
validations and exactly the parent pointer of the node was rewritten. -/
theorem move_characterize (st : DriveState) (rid : Nat) (rp : MovePId) :
    (move st rid rp).2 = st ∨
    (∃ item, lookupId st.files rid = some item ∧
      normalizeMovePId rp = none ∧
      (move st rid rp).1 = Except.ok { item with parentId := none } ∧
      (move st rid rp).2.files = st.files.map (fun n =>
        if n.id == item.id then { n with parentId := none } else n)) ∨
    (∃ item np npNode, lookupId st.files rid = some item ∧
      normalizeMovePId rp = some np ∧
      st.files.find? (fun n => n.id == np && n.type == NType.folder) = some npNode ∧
      (npNode.id == item.id) = false ∧
      item.id ∉ ancestorChain st.files npNode.parentId ∧
      (move st rid rp).1 = Except.ok { item with parentId := some np } ∧
      (move st rid rp).2.files = st.files.map (fun n =>
        if n.id == item.id then { n with parentId := some np } else n)) := by
  rw [move]
  cases hit : lookupId st.files rid with
  | none => exact Or.inl rfl
  | some item =>
      dsimp only
      by_cases hsame : (item.parentId == normalizeMovePId rp) = true
      · rw [if_pos hsame]
        exact Or.inl rfl
      · rw [if_neg hsame]
        cases hnp : normalizeMovePId rp with
        | none =>
            dsimp only
            cases hcol : st.files.find? (fun n =>
                n.parentId == none && n.name == item.name && n.isTrash == false) with
            | some c => exact Or.inl rfl
            | none => exact Or.inr (Or.inl ⟨item, rfl, rfl, rfl, rfl⟩)
        | some np =>
            dsimp only
            cases hfind : st.files.find? (fun n => n.id == np && n.type == NType.folder) with
            | none => exact Or.inl rfl
            | some npNode =>
                dsimp only
                cases hself : (npNode.id == item.id) with
                | true =>
                    rw [if_pos rfl]
                    exact Or.inl rfl
                | false =>
                    rw [if_neg Bool.false_ne_true]
                    by_cases hanc : item.id ∈ ancestorChain st.files npNode.parentId
                    · rw [if_pos hanc]
                      exact Or.inl rfl
                    · rw [if_neg hanc]
                      cases hcol : st.files.find? (fun n =>
                          n.parentId == some np && n.name == item.name &&
                            n.isTrash == false) with
                      | some c => exact Or.inl rfl
                      | none =>
                          exact Or.inr (Or.inr ⟨item, np, npNode, rfl, rfl, hfind,
                            hself, hanc, rfl, rfl⟩)

/-- C4: on a state whose parentId graph is acyclic and whose ids are
distinct, no move request can introduce a cycle: the resulting state is
acyclic whether the move is accepted or rejected, every rejected move leaves
the state untouched, and a move whose validated folder destination is the
node itself or one of its strict descendants is rejected with one of the two
cycle messages, leaving the tree unchanged. -/
theorem move_preserves_acyclicity (st : DriveState) (rid : Nat) (rp : MovePId)
    (hacB : acyclicB st.files = true) (hnd : (idsOf st.files).Nodup) :
    Acyclic ((move st rid rp).2.files) ∧
    (∀ e, (move st rid rp).1 = Except.error e → (move st rid rp).2 = st) ∧
    (∀ item npNode, lookupId st.files rid = some item →
      normalizeMovePId rp = some npNode.id →
      st.files.find? (fun n => n.id == npNode.id && n.type == NType.folder) = some npNode →
      (npNode.id = item.id ∨ DescendantOf st.files npNode.id item.id) →
      ∃ e, (move st rid rp).1 = Except.error e ∧ (move st rid rp).2 = st ∧
        (e.message = "Cannot move into itself." ∨
          e.message = "Cannot move folder into its own descendant.")) := by
  have hacy : Acyclic st.files := acyclic_of_acyclicB st.files hacB
  have hdom := parentStep_dom st.files
  refine ⟨?_, ?_, ?_⟩
  · rcases move_characterize st rid rp with hunch | ⟨item, hit, hnorm, hok, hfiles⟩ |
        ⟨item, np, npNode, hit, hnorm, hfind, hself, hanc, hok, hfiles⟩
    · rw [hunch]; exact hacy
    · have hmem : item ∈ st.files := List.mem_of_find?_eq_some hit
      show AcyclicF (parentStep (move st rid rp).2.files)
      rw [hfiles, parentStep_update st.files hnd item hmem none]
      exact acyclic_update (parentStep st.files) (idsOf st.files) hdom hacy item.id none
        (fun np0 h => Option.noConfusion h)
    · have hmem : item ∈ st.files := List.mem_of_find?_eq_some hit
      have hnpmem : npNode ∈ st.files := List.mem_of_find?_eq_some hfind
      have hnppred := List.find?_some hfind
      have hnpid : npNode.id = np := by
        have hh := hnppred
        rw [Bool.and_eq_true] at hh
        simpa using hh.1
      show AcyclicF (parentStep (move st rid rp).2.files)
      rw [hfiles, parentStep_update st.files hnd item hmem (some np)]
      apply acyclic_update (parentStep st.files) (idsOf st.files) hdom hacy item.id (some np)
      intro np0 h
      cases h
      constructor
      · intro heq
        have : (npNode.id == item.id) = true := by rw [hnpid, heq]; simp
        rw [this] at hself
        cases hself
      · have hfnp : parentStep st.files np = npNode.parentId := by
          simp only [parentStep, ← hnpid, lookup_self st.files hnd npNode hnpmem]
          rfl
        rw [hfnp]
        exact hanc
  · intro e he
    rcases move_characterize st rid rp with hunch | ⟨item, hit, hnorm, hok, hfiles⟩ |
        ⟨item, np, npNode, hit, hnorm, hfind, hself, hanc, hok, hfiles⟩
    · exact hunch
    · rw [hok] at he
      cases he
    · rw [hok] at he
      cases he
  · intro item npNode hit hnorm hfind hdesc
    have hmem : item ∈ st.files := List.mem_of_find?_eq_some hit
    have hlookitem : lookupId st.files item.id = some item :=
      lookup_self st.files hnd item hmem
    have hnpmem : npNode ∈ st.files := List.mem_of_find?_eq_some hfind
    have hsame : (item.parentId == normalizeMovePId rp) = false := by
      rw [hnorm]
      cases hv : (item.parentId == some npNode.id) with
      | false => rfl
      | true =>
          exfalso
          have hpid : item.parentId = some npNode.id := by simpa using hv
          have hstep : parentStep st.files item.id = some npNode.id := by
            simp only [parentStep, hlookitem, Option.some_bind]
            exact hpid
          rcases hdesc with heq | ⟨k, hk⟩
          · apply hacy item.id 0
            rw [show (0 : Nat) + 1 = 1 from rfl, iterF_one, hstep, heq]
          · apply hacy item.id (k + 1)
            have hred : iterF (parentStep st.files) ((k + 1) + 1) item.id =
                (parentStep st.files item.id).bind
                  (iterF (parentStep st.files) (k + 1)) := rfl
            rw [hred, hstep, Option.some_bind, hk]
    rw [move, hit]
    dsimp only
    rw [if_neg (by rw [hsame]; exact Bool.false_ne_true)]
    rw [hnorm]
    dsimp only
    rw [hfind]
    dsimp only
    rcases hdesc with heq | hdes
    · have hbeq : (npNode.id == item.id) = true := by simpa using heq
      rw [hbeq]
      exact ⟨⟨400, "Cannot move into itself."⟩, rfl, rfl, Or.inl rfl⟩
    · have hbeqf : (npNode.id == item.id) = false := by
        cases hbv : (npNode.id == item.id) with
        | false => rfl
        | true =>
            exfalso
            have heq2 : npNode.id = item.id := by simpa using hbv
            obtain ⟨k, hk⟩ := hdes
            rw [heq2] at hk
            exact hacy item.id k hk
      rw [hbeqf]
      have hmemanc : item.id ∈ ancestorChain st.files npNode.parentId := by
        obtain ⟨k, hk⟩ := hdes
        have hfnp : parentStep st.files npNode.id = npNode.parentId := by
          simp only [parentStep, lookup_self st.files hnd npNode hnpmem]
          rfl
        have hk2 : (parentStep st.files npNode.id).bind
            (iterF (parentStep st.files) k) = some item.id := hk
        rw [hfnp] at hk2
        cases hq : npNode.parentId with
        | none => rw [hq] at hk2; cases hk2
        | some q =>
            rw [hq, Option.some_bind] at hk2
            have hc := chainF_complete (parentStep st.files) (idsOf st.files)
              hdom hacy k q item.id hk2
            show item.id ∈ chainF (parentStep st.files)
              ((idsOf st.files).length + 2) (some q)
            exact hc
      rw [if_pos hmemanc]
      exact ⟨⟨400, "Cannot move folder into its own descendant."⟩, rfl, rfl, Or.inr rfl⟩

/-- Sample folder A at the root. -/
def folderA : Node :=
  { id := 1, name := "A", type := NType.folder, parentId := none, s3Key := "folders/ka",
    size := 0, mimeType := "", isStarred := false, isTrash := false, trashedAt := none }

/-- Sample folder B inside A. -/
def folderB : Node :=
  { folderA with id := 2, name := "B", parentId := some 1, s3Key := "folders/kb" }

/-- Sample file x.txt inside B: a grandchild of A. -/
def fileX : Node :=
  { id := 3, name := "x.txt", type := NType.file, parentId := some 2, s3Key := "uploads/kx",
    size := 10, mimeType := "text/plain", isStarred := false, isTrash := false,
    trashedAt := none }

/-- Sample namespace: A at root, B inside A, x.txt inside B. -/
def sampleTree : DriveState :=
  { files := [folderA, folderB, fileX], blobs := ["uploads/kx"], storageUsed := 10,
    storageLimit := 1000, nextId := 4 }

/-- Sample namespace of Scenario C: folder A at root and folder B inside A. -/
def twoFolders : DriveState :=
  { files := [folderA, folderB], blobs := [], storageUsed := 0, storageLimit := 1000,
    nextId := 3 }

/-- Witness for C4, the Scenario C shape: moving A into its child B is
rejected with the cycle message, the tree is unchanged, and the resulting
state is still acyclic. -/
theorem move_preserves_acyclicity_witness :
    Acyclic ((move twoFolders 1 (MovePId.idv 2)).2.files) ∧
    (∃ e, (move twoFolders 1 (MovePId.idv 2)).1 = Except.error e ∧
      (move twoFolders 1 (MovePId.idv 2)).2 = twoFolders ∧
      (e.message = "Cannot move into itself." ∨
        e.message = "Cannot move folder into its own descendant.")) :=
  have h := move_preserves_acyclicity twoFolders 1 (MovePId.idv 2) (by decide) (by decide)
  ⟨h.1, h.2.2 folderA folderB (by decide) rfl (by decide)
    (Or.inr ⟨0, by decide⟩)⟩

/-- The sample namespace with the whole subtree trashed as a unit. -/
def sampleTreeTrashed : DriveState :=
  { sampleTree with
    files := sampleTree.files.map (fun n => { n with isTrash := true, trashedAt := some 5 }) }

/-- C1: trashing folder A in the sample tree marks A and its direct child B,
but leaves the grandchild x.txt live, and restoring A from the fully trashed
tree clears A and B but leaves x.txt trashed: the cascade of softDeleteFile
and restoreFile reaches direct children only (the s3Key prefix disjunct of
the children query never matches the opaque uploads and folders keys), so it
is not transitive over the whole subtree. -/
theorem trash_cascade_misses_grandchild :
    ((softDeleteFile sampleTree 1 5).2.files.map (fun n => (n.id, n.isTrash))) =
      [(1, true), (2, true), (3, false)] ∧
    (softDeleteFile sampleTree 1 5).1 = true ∧
    ((restoreFile sampleTreeTrashed 1).2.files.map (fun n => (n.id, n.isTrash))) =
      [(1, false), (2, false), (3, true)] := by
  decide

/-- C3: when the actual uploaded size would push storageUsed past
storageLimit, the upload endpoint answers 403 Storage quota exceeded, the
just-written blob is deleted again, no document is created and the whole
state, quota counter included, is unchanged. -/
theorem upload_quota_exceeded_atomic (st : DriveState) (req : UploadReq)
    (hsize : st.storageUsed + (req.size : Int) > st.storageLimit)
    (hkey : req.key ∉ st.blobs) :
    (upload st req).1 = Except.error ⟨403, "Storage quota exceeded."⟩ ∧
    (upload st req).2 = st ∧ req.key ∉ (upload st req).2.blobs := by
  by_cases hpre : req.declaredLen > 0 ∧ st.storageUsed + (req.declaredLen : Int) > st.storageLimit
  · rw [upload, if_pos hpre]
    exact ⟨rfl, rfl, hkey⟩
  · rw [upload, if_neg hpre]
    simp only
    rw [if_pos hsize]
    have hfilter : (req.key :: st.blobs).filter (fun k => k != req.key) = st.blobs := by
      simp only [List.filter_cons]
      have h1 : (req.key != req.key) = false := by simp
      rw [h1]
      simp only [Bool.false_eq_true, if_false]
      apply List.filter_eq_self.mpr
      intro a ha
      have : a ≠ req.key := fun h => hkey (h ▸ ha)
      simpa using this
    refine ⟨rfl, ?_, ?_⟩
    · show ({ st with blobs := (req.key :: st.blobs).filter (fun k => k != req.key) } :
          DriveState) = st
      rw [hfilter]
    · show req.key ∉ (req.key :: st.blobs).filter (fun k => k != req.key)
      rw [hfilter]
      exact hkey

/-- Witness for C3, the Scenario A shape: an empty account with limit 1000
uploading 1500 bytes is rejected, leaves the counter at 0 and no blob. -/
theorem upload_quota_exceeded_atomic_witness :
    (upload (initState 1000)
        { declaredLen := 0, size := 1500, key := "uploads/k9", origName := "big.bin",
          parts := [], parentId := none, mimeType := "b" }).1 =
      Except.error ⟨403, "Storage quota exceeded."⟩ ∧
    (upload (initState 1000)
        { declaredLen := 0, size := 1500, key := "uploads/k9", origName := "big.bin",
          parts := [], parentId := none, mimeType := "b" }).2 = initState 1000 ∧
    "uploads/k9" ∉ (upload (initState 1000)
        { declaredLen := 0, size := 1500, key := "uploads/k9", origName := "big.bin",
          parts := [], parentId := none, mimeType := "b" }).2.blobs :=
  upload_quota_exceeded_atomic (initState 1000)
    { declaredLen := 0, size := 1500, key := "uploads/k9", origName := "big.bin",
      parts := [], parentId := none, mimeType := "b" }
    (by decide) (by decide)

/-- Sample sibling of x.txt used by the rename claim. -/
def fileY : Node := { fileX with id := 5, name := "y.txt", s3Key := "uploads/ky" }

/-- Sample namespace where x.txt and y.txt are live siblings inside B. -/
def renameTree : DriveState :=
  { sampleTree with files := [folderA, folderB, fileX, fileY] }

/-- C5 counterexample: renaming y.txt to x.txt while a live sibling x.txt
exists under the same parent succeeds instead of failing with NameConflict,
leaving two live siblings with the same name. -/
theorem rename_ignores_sibling_conflict :
    (rename renameTree 5 "x.txt").1 = Except.ok ({ fileY with name := "x.txt" }) ∧
    ((rename renameTree 5 "x.txt").2.files.filter (fun n =>
        n.name == "x.txt" && n.parentId == some 2 && !n.isTrash)).length = 2 :=
  ⟨rfl, by decide⟩

/-- C5 amended: the rename endpoint performs no sibling name check at all; on
any found document and nonempty trimmed name it succeeds and changes only the
name to the trimmed input, leaving type, parentId and every other document
untouched. -/
theorem rename_updates_only_name (st : DriveState) (rid : Nat) (nm : String) (item : Node)
    (hname : (jsTrim nm == "") = false) (hfound : lookupId st.files rid = some item) :
    (rename st rid nm).1 = Except.ok { item with name := jsTrim nm } ∧
    (rename st rid nm).2.files.length = st.files.length ∧
    (∀ n ∈ st.files, n.id ≠ rid → n ∈ (rename st rid nm).2.files) ∧
    (∀ n ∈ st.files, n.id = rid → { n with name := jsTrim nm } ∈ (rename st rid nm).2.files) := by
  have hcond : ¬ ((jsTrim nm == "") = true) := by rw [hname]; simp
  rw [rename, if_neg hcond, hfound]
  refine ⟨rfl, by simp, ?_, ?_⟩
  · intro n hn hne
    have himg : (fun n => if n.id == rid then { n with name := jsTrim nm } else n) n = n := by
      simp [hne]
    rw [← himg]
    exact List.mem_map_of_mem _ hn
  · intro n hn heq
    have himg : (fun n => if n.id == rid then { n with name := jsTrim nm } else n) n =
        { n with name := jsTrim nm } := by
      simp [heq]
    rw [← himg]
    exact List.mem_map_of_mem _ hn

/-- Witness for C5 amended: renaming y.txt to z.txt in the sample namespace. -/
theorem rename_updates_only_name_witness :
    (rename renameTree 5 "z.txt").1 = Except.ok { fileY with name := jsTrim "z.txt" } ∧
    (rename renameTree 5 "z.txt").2.files.length = renameTree.files.length ∧
    (∀ n ∈ renameTree.files, n.id ≠ 5 → n ∈ (rename renameTree 5 "z.txt").2.files) ∧
    (∀ n ∈ renameTree.files, n.id = 5 →
      { n with name := jsTrim "z.txt" } ∈ (rename renameTree 5 "z.txt").2.files) :=
  rename_updates_only_name renameTree 5 "z.txt" fileY (by decide) (by decide)

/-- Sample pair for the bulk-star claim: one starred and one unstarred file. -/
def starTree : DriveState :=
  { files := [{ fileX with id := 1, s3Key := "uploads/k1", isStarred := true },
              { fileX with id := 2, s3Key := "uploads/k2", isStarred := false }],
    blobs := ["uploads/k1", "uploads/k2"], storageUsed := 20, storageLimit := 1000,
    nextId := 3 }

/-- C7 counterexample: on a starred node 1 and an unstarred node 2, bulk-star
of both ids is not the single-item toggle applied per id (that would unstar
node 1), and the response carries a message and the shared boolean status,
not a count of affected ids. -/
theorem bulkStar_not_per_item_toggle :
    (bulkStar starTree [1, 2]).2 ≠ (star (star starTree 1).2 2).2 ∧
    (bulkStar starTree [1, 2]).1 = Except.ok ("Added to Starred", true) ∧
    ((bulkStar starTree [1, 2]).2.files.map (fun n => (n.id, n.isStarred))) =
      [(1, true), (2, true)] :=
  ⟨by decide, rfl, by decide⟩

/-- C7 amended: bulk-star computes one shared status, true exactly when some
matching owned document is unstarred, writes it to every document whose id is
in the set, silently leaves all other documents alone, and reports the shared
status (with a message) instead of a count. -/
theorem bulkStar_shared_status (st : DriveState) (ids : List Nat) (h : ids.isEmpty = false) :
    (bulkStar st ids).1 = Except.ok
      ((if (st.files.filter (fun n => ids.contains n.id)).any (fun n => !n.isStarred)
        then "Added to Starred" else "Removed from Starred"),
        (st.files.filter (fun n => ids.contains n.id)).any (fun n => !n.isStarred)) ∧
    (∀ n ∈ st.files, ids.contains n.id = true →
      { n with isStarred :=
          (st.files.filter (fun n => ids.contains n.id)).any (fun n => !n.isStarred) } ∈
        (bulkStar st ids).2.files) ∧
    (∀ n ∈ st.files, ids.contains n.id = false → n ∈ (bulkStar st ids).2.files) := by
  have hcond : ¬ (ids.isEmpty = true) := by rw [h]; simp
  rw [bulkStar, if_neg hcond]
  refine ⟨rfl, ?_, ?_⟩
  · intro n hn hc
    have hm : n.id ∈ ids := by simpa using hc
    have himg : (fun n => if ids.contains n.id then
        { n with isStarred :=
            (st.files.filter (fun n => ids.contains n.id)).any (fun n => !n.isStarred) }
        else n) n =
        { n with isStarred :=
            (st.files.filter (fun n => ids.contains n.id)).any (fun n => !n.isStarred) } := by
      simp [hc, hm]
    rw [← himg]
    exact List.mem_map_of_mem _ hn
  · intro n hn hc
    have hm : n.id ∉ ids := by simpa using hc
    have himg : (fun n => if ids.contains n.id then
        { n with isStarred :=
            (st.files.filter (fun n => ids.contains n.id)).any (fun n => !n.isStarred) }
        else n) n = n := by
      simp [hc, hm]
    rw [← himg]
    exact List.mem_map_of_mem _ hn

/-- Witness for C7 amended, at the sample pair with one missing id. -/
theorem bulkStar_shared_status_witness :
    (bulkStar starTree [1, 2, 99]).1 = Except.ok
      ((if (starTree.files.filter (fun n => [1, 2, 99].contains n.id)).any (fun n => !n.isStarred)
        then "Added to Starred" else "Removed from Starred"),
        (starTree.files.filter (fun n => [1, 2, 99].contains n.id)).any (fun n => !n.isStarred)) ∧
    (∀ n ∈ starTree.files, [1, 2, 99].contains n.id = true →
      { n with isStarred :=
          (starTree.files.filter (fun n => [1, 2, 99].contains n.id)).any (fun n => !n.isStarred) } ∈
        (bulkStar starTree [1, 2, 99]).2.files) ∧
    (∀ n ∈ starTree.files, [1, 2, 99].contains n.id = false →
      n ∈ (bulkStar starTree [1, 2, 99]).2.files) :=
  bulkStar_shared_status starTree [1, 2, 99] (by decide)

theorem ensurePathGo_storageUsed :
    ∀ parts st pm cur curPath,
      (ensurePathGo st pm cur curPath parts).2.2.storageUsed = st.storageUsed := by
  intro parts
  induction parts with
  | nil => intro st pm cur curPath; rfl
  | cons part rest ih =>
      intro st pm cur curPath
      simp only [ensurePathGo]
      split
      · apply ih
      · split
        · apply ih
        · apply ih

theorem zipGo_storageUsed :
    ∀ entries st pm pid count, (zipGo st pm pid count entries).2.storageUsed = st.storageUsed := by
  intro entries
  induction entries with
  | nil => intro st pm pid count; rfl
  | cons entry rest ih =>
      intro st pm pid count
      simp only [zipGo]
      split
      · rw [ih]
        exact ensurePathGo_storageUsed _ _ _ _ _
      · split
        · apply ih
        · split
          · apply ih
          · rw [ih]
            exact ensurePathGo_storageUsed _ _ _ _ _

/-- Zip archive of Scenario F: two files of 5 and 7 bytes. -/
def zipOverQuotaReq : ZipReq :=
  { declaredLen := 0, entries := [⟨"a.txt", false, 5⟩, ⟨"dir/b.txt", false, 7⟩],
    parentId := none }

/-- Zip archive holding a real file and a Mac metadata entry that the import
walk skips. -/
def zipDsStoreReq : ZipReq :=
  { declaredLen := 0, entries := [⟨"a.txt", false, 5⟩, ⟨".DS_Store", false, 7⟩],
    parentId := none }

/-- C6 counterexample: importing an archive with a 5 byte file and a 7 byte
Mac metadata entry into an empty account commits 12 bytes of quota, although
only one node holding 5 bytes was imported: the final commit uses the
first-pass total of all non-directory entries, not the bytes actually
written for the imported entries. -/
theorem zip_commit_not_actual_written :
    (uploadZip (initState 100) zipDsStoreReq).1 =
      Except.ok ("Zip extracted successfully.", 1) ∧
    (uploadZip (initState 100) zipDsStoreReq).2.storageUsed = 12 ∧
    liveSum (uploadZip (initState 100) zipDsStoreReq).2.files = 5 :=
  ⟨rfl, by decide, by decide⟩

/-- C6 amended: the whole-archive quota check happens once against the
first-pass total of the uncompressed entry sizes; if it would exceed the
limit the import is rejected entirely with the state unchanged (zero nodes,
quota untouched), and otherwise quota is committed exactly once at the end by
that same first-pass total, which can exceed the bytes actually written when
entries are skipped during the walk. -/
theorem zip_quota_single_commit (st : DriveState) (req : ZipReq)
    (hpre : ¬(req.declaredLen > 0 ∧
        st.storageUsed + (req.declaredLen : Int) > st.storageLimit)) :
    (st.storageUsed + (zipTotalSize req.entries : Int) > st.storageLimit →
      (uploadZip st req).1 =
        Except.error ⟨403, "Storage quota exceeded (uncompressed size)."⟩ ∧
      (uploadZip st req).2 = st) ∧
    (¬(st.storageUsed + (zipTotalSize req.entries : Int) > st.storageLimit) →
      (uploadZip st req).2.storageUsed =
        st.storageUsed + (zipTotalSize req.entries : Int)) := by
  constructor
  · intro hex
    rw [uploadZip, if_neg hpre]
    simp only
    rw [if_pos hex]
    exact ⟨rfl, rfl⟩
  · intro hex
    rw [uploadZip, if_neg hpre]
    simp only
    rw [if_neg hex]
    simp only
    rw [zipGo_storageUsed]

/-- Witness for C6 amended, the Scenario F shape: a 12 byte archive against a
limit of 10 on an empty account is rejected entirely. -/
theorem zip_quota_single_commit_witness :
    (uploadZip (initState 10) zipOverQuotaReq).1 =
      Except.error ⟨403, "Storage quota exceeded (uncompressed size)."⟩ ∧
    (uploadZip (initState 10) zipOverQuotaReq).2 = initState 10 :=
  (zip_quota_single_commit (initState 10) zipOverQuotaReq (by decide)).1 (by decide)

/-- Sample expired trashed file. -/
def expiredX : Node := { fileX with isTrash := true, trashedAt := some 1 }

/-- Reaper sample: a user whose expired file sits at a blob key that the
object store will fail to delete. -/
def cronUser1 : CronUser :=
  { uid := 1, isActive := true, trashRetentionDays := 30,
    st := { files := [expiredX], blobs := ["uploads/kx"], storageUsed := 10,
            storageLimit := 100, nextId := 9 } }

/-- Reaper sample: a second user with an expired file at a healthy key. -/
def cronUser2 : CronUser :=
  { uid := 2, isActive := true, trashRetentionDays := 30,
    st := { files := [{ expiredX with id := 8, s3Key := "uploads/k8" }],
            blobs := ["uploads/k8"], storageUsed := 10, storageLimit := 100, nextId := 9 } }

/-- C8 counterexample: with two users whose expired items are due, an S3
failure while deleting the first user item makes the whole sweep throw: no
count is returned and the second user is not processed (the expired item of
user 2 survives untouched), although a sweep reaching user 2 alone would
delete it.  The single try/catch of cleanupTrash wraps the whole user loop
and rethrows. -/
theorem cleanup_aborts_on_failure :
    cleanupTrash [cronUser1, cronUser2] 100 ["uploads/kx"] =
      Except.error [cronUser1, cronUser2] ∧
    (lookupId cronUser2.st.files 8).isSome = true ∧
    cleanupTrash [cronUser2] 100 ["uploads/kx"] =
      Except.ok (1, [{ cronUser2 with
        st := { cronUser2.st with files := [], blobs := [], storageUsed := 0 } }]) :=
  ⟨rfl, rfl, rfl⟩

theorem delChildrenF_nofail :
    ∀ cs st freed, ∃ r, delChildrenF st cs freed [] = Except.ok r := by
  intro cs
  induction cs with
  | nil => intro st freed; exact ⟨(freed, st), rfl⟩
  | cons c rest ih =>
      intro st freed
      simp only [delChildrenF]
      split
      · have hc : (([] : List String).contains c.s3Key) = false := rfl
        rw [hc]
        simp only [Bool.false_eq_true, if_false]
        apply ih
      · apply ih

theorem deleteFilePermanentlyF_nofail (st : DriveState) (fid : Nat) :
    ∃ r, deleteFilePermanentlyF st fid [] = Except.ok r := by
  rw [deleteFilePermanentlyF]
  cases h : lookupId st.files fid with
  | none => exact ⟨(false, st), rfl⟩
  | some item =>
      simp only
      split
      · obtain ⟨⟨freed, st1⟩, hr⟩ := delChildrenF_nofail (childQuery st.files item) st 0
        rw [hr]
        exact ⟨_, rfl⟩
      · have hc : (([] : List String).contains item.s3Key) = false := rfl
        rw [hc]
        simp only [Bool.false_eq_true, if_false]
        exact ⟨_, rfl⟩

theorem sweepUserItems_nofail :
    ∀ items st c, ∃ r, sweepUserItems st items c [] = Except.ok r := by
  intro items
  induction items with
  | nil => intro st c; exact ⟨(c, st), rfl⟩
  | cons f rest ih =>
      intro st c
      simp only [sweepUserItems]
      split
      · obtain ⟨⟨b, st1⟩, hr⟩ := deleteFilePermanentlyF_nofail st f.id
        rw [hr]
        apply ih
      · apply ih

/-- C8 amended: a failure while permanently deleting one user expired items
aborts the entire sweep, because the single try/catch in cleanupTrash wraps
the whole user loop and rethrows (counterexample above); a failure-free sweep
never throws, processes every user and returns the total count of top-level
permanent-delete invocations. -/
theorem cleanup_completes_without_failures :
    ∀ (users : List CronUser) (now : Nat),
      ∃ c users1, cleanupTrash users now [] = Except.ok (c, users1) ∧
        users1.length = users.length := by
  intro users
  induction users with
  | nil => intro now; exact ⟨0, [], rfl, rfl⟩
  | cons u rest ih =>
      intro now
      obtain ⟨c2, rest1, hr, hl⟩ := ih now
      by_cases hact : u.isActive = true
      · obtain ⟨⟨c, st1⟩, hs⟩ := sweepUserItems_nofail
          (expiredFiles u.st
            (now - (if u.trashRetentionDays == 0 then 30 else u.trashRetentionDays)))
          u.st 0
        rw [cleanupTrash, if_pos hact]
        simp only [hs, hr]
        refine ⟨c + c2, _, rfl, ?_⟩
        simp [hl]
      · rw [cleanupTrash, if_neg hact]
        simp only [hr]
        refine ⟨c2, _, rfl, ?_⟩
        simp [hl]

theorem upload_error_is_quota (st : DriveState) (req : UploadReq) (e : ErrResp)
    (h : (upload st req).1 = Except.error e) :
    e = ⟨403, "Storage quota exceeded."⟩ := by
  rw [upload] at h
  by_cases h1 : req.declaredLen > 0 ∧ st.storageUsed + (req.declaredLen : Int) > st.storageLimit
  · rw [if_pos h1] at h
    simp only [Except.error.injEq] at h
    exact h.symm
  · rw [if_neg h1] at h
    dsimp only at h
    by_cases h2 : st.storageUsed + (req.size : Int) > st.storageLimit
    · rw [if_pos h2] at h
      simp only [Except.error.injEq] at h
      exact h.symm
    · rw [if_neg h2] at h
      simp at h

theorem resolveNameLoop_finds (files : List Node) (parent : Option Nat) (rel : String)
    (k : Nat) (hfree : nameTaken files parent (candidateName rel k) = false)
    (hmin : ∀ j, 1 ≤ j → j < k → nameTaken files parent (candidateName rel j) = true) :
    ∀ fuel c, 1 ≤ c → c ≤ k → k - c < fuel →
      resolveNameLoop files parent rel fuel (candidateName rel c) (c + 1) =
        candidateName rel k := by
  intro fuel
  induction fuel with
  | zero => intro c h1 h2 h3; omega
  | succ fuel ih =>
      intro c h1 h2 h3
      rw [resolveNameLoop]
      by_cases hck : c = k
      · subst hck
        rw [hfree]
        simp
      · have hc : nameTaken files parent (candidateName rel c) = true :=
          hmin c h1 (by omega)
        rw [hc]
        simp only [if_true]
        exact ih (c + 1) (by omega) (by omega) (by omega)

/-- C9: when the requested file name collides with a live sibling, the upload
endpoint does not fail: the duplicate-name loop returns the candidate with
the counter inserted before the last extension dot for the smallest counter
k at least 1 whose candidate has no live same-named sibling, that resolved
name is free, and the created document carries it; the upload endpoint can
only fail with the quota message, never with a name conflict. -/
theorem upload_duplicate_name_counter (files : List Node) (parent : Option Nat)
    (rel : String) (k : Nat)
    (hconf : nameTaken files parent rel = true)
    (hk1 : 1 ≤ k) (hkf : k < files.length + 2)
    (hfree : nameTaken files parent (candidateName rel k) = false)
    (hmin : ∀ j, 1 ≤ j → j < k → nameTaken files parent (candidateName rel j) = true) :
    resolveName files parent rel = candidateName rel k ∧
    nameTaken files parent (resolveName files parent rel) = false ∧
    (∀ (st : DriveState) (req : UploadReq) (e : ErrResp),
      (upload st req).1 = Except.error e → e.message = "Storage quota exceeded.") := by
  have hmain : resolveName files parent rel = candidateName rel k := by
    rw [resolveName]
    rw [show files.length + 2 = (files.length + 1) + 1 from rfl]
    rw [resolveNameLoop, hconf]
    simp only [if_true]
    exact resolveNameLoop_finds files parent rel k hfree hmin
      (files.length + 1) 1 le_rfl hk1 (by omega)
  refine ⟨hmain, by rw [hmain]; exact hfree, ?_⟩
  intro st req e h
  rw [upload_error_is_quota st req e h]

/-- Sample siblings for the duplicate-name claim: doc.txt and its first
counter candidate are both taken. -/
def dupNameFiles : List Node :=
  [{ fileX with id := 6, name := "doc.txt", parentId := none, s3Key := "uploads/k6" },
   { fileX with id := 7, name := "doc (1).txt", parentId := none, s3Key := "uploads/k7" }]

/-- Witness for C9: uploading doc.txt next to doc.txt and doc (1).txt
resolves to doc (2).txt. -/
theorem upload_duplicate_name_counter_witness :
    resolveName dupNameFiles none "doc.txt" = candidateName "doc.txt" 2 ∧
    nameTaken dupNameFiles none (resolveName dupNameFiles none "doc.txt") = false ∧
    (∀ (st : DriveState) (req : UploadReq) (e : ErrResp),
      (upload st req).1 = Except.error e → e.message = "Storage quota exceeded.") :=
  upload_duplicate_name_counter dupNameFiles none "doc.txt" 2 (by decide) (by decide)
    (by decide) (by decide)
    (by
      intro j h1 h2
      have hj : j = 1 := by omega
      subst hj
      decide)

/-- Sample namespace where x.txt has a live same-named sibling inside B, so a
destination collision exists at the parent of x.txt. -/
def moveSameTree : DriveState :=
  { sampleTree with
    files := [folderA, folderB, fileX, { fileX with id := 6, s3Key := "uploads/k6" }] }

/-- C10: when the normalized requested parent (root and the empty string both
meaning null) equals the current parent of the node, the move endpoint
returns the node unchanged and touches nothing: the theorem holds for every
state, in particular ones where the destination would fail the parent
existence, cycle or name-collision validations, so none of them is
performed. -/
theorem move_same_parent_short_circuit (st : DriveState) (rid : Nat) (rp : MovePId)
    (item : Node) (hfound : lookupId st.files rid = some item)
    (hsame : item.parentId = normalizeMovePId rp) :
    (move st rid rp).1 = Except.ok item ∧ (move st rid rp).2 = st := by
  have hbeq : (item.parentId == normalizeMovePId rp) = true := by
    rw [hsame]; simp
  rw [move, hfound]
  simp only [hbeq, if_true]
  refine ⟨?_, ?_⟩ <;> first | rfl | trivial

/-- Witness for C10: moving x.txt to its current parent B, in a namespace
where a live sibling with the same name exists at that destination (which the
collision validation would reject if it ran). -/
theorem move_same_parent_short_circuit_witness :
    (move moveSameTree 3 (MovePId.idv 2)).1 = Except.ok fileX ∧
    (move moveSameTree 3 (MovePId.idv 2)).2 = moveSameTree :=
  move_same_parent_short_circuit moveSameTree 3 (MovePId.idv 2) fileX (by decide) (by decide)

end GDrive
